import Mathlib

/-!
Verification of the fuzzy catalog engine of `bot.py`: the normalizer
(`normalize_abbreviations`), the similarity scorer, the ranking engine
(`advanced_fuzzy_search` with its result cache), the catalog mutation
(`add_movie`) and the term index (`build_movies_index`).

Strings are modeled as `List Char`.  Python's `str.lower` is modeled by
ASCII case folding (`Char.toLower`), `\w` and `\d` of the `re` module by
their ASCII fragments; the catalog titles the program handles are ASCII.
Scores, which the source computes in floating point, are modeled in `ℚ`;
every ordering fact proved below holds with margins far larger than any
rounding noise (the bonuses are 300/150/80 against composites bounded by
100), so the rational model is faithful to the float ordering.

The rapidfuzz metrics (`fuzz.ratio`, `fuzz.partial_ratio`,
`fuzz.token_sort_ratio`, `fuzz.token_set_ratio`) are an external library;
they are modeled from their documented behavior, which the specification
restates in its §4.2 (edit-distance ratio in `[0,100]`, best window ratio,
token sort and token set variants).  All functions of `bot.py` itself are
translated from the source.
-/

namespace MovieBot

abbrev Str := List Char

/-- Model of Python `str.lower` applied characterwise (ASCII case folding). -/
def pyLower (s : Str) : Str := s.map Char.toLower

/-- Model of Python `str.strip`: drop leading and trailing whitespace. -/
def pyStrip (s : Str) : Str :=
  ((s.dropWhile Char.isWhitespace).reverse.dropWhile Char.isWhitespace).reverse

/-- Model of the regex class `\w` (ASCII fragment): letters, digits, underscore. -/
def wordChar (c : Char) : Bool := c.isAlphanum || c == '_'

/-- Right word boundary test: the rest of the input starts with a non-word
character or is empty. -/
def atBoundary : Str → Bool
  | [] => true
  | c :: _ => !(wordChar c)

/-- Attempt to match the regex `kw(\d+)\b` at the current position (the caller
has already checked the left `\b`).  On success, return the digit group and
the remaining input. -/
def tryAbbrev (kw : Str) (s : Str) : Option (Str × Str) :=
  if kw.isPrefixOf s then
    if ((s.drop kw.length).takeWhile Char.isDigit).isEmpty then none
    else if atBoundary ((s.drop kw.length).dropWhile Char.isDigit) then
      some ((s.drop kw.length).takeWhile Char.isDigit, (s.drop kw.length).dropWhile Char.isDigit)
    else none
  else none

/-- Fuel-indexed scanner for `re.sub(r'\bkw(\d+)\b', canon ++ " " ++ group 1, s)`:
scan left to right; `prevw` records whether the previous character was a word
character (there is a word boundary before a word character exactly when
`prevw = false`).  After a match the scan resumes after the matched text, whose
last character is a digit, hence `prevw = true`.  Any fuel `≥ s.length`
computes the total function. -/
def reSubF (kw canon : Str) : Nat → Bool → Str → Str
  | 0, _, s => s
  | _ + 1, _, [] => []
  | n + 1, prevw, c :: rest =>
    if prevw then c :: reSubF kw canon n (wordChar c) rest
    else
      match tryAbbrev kw (c :: rest) with
      | some (d, r) => canon ++ ' ' :: (d ++ reSubF kw canon n true r)
      | none => c :: reSubF kw canon n (wordChar c) rest

/-- `re.sub(r'\bkw(\d+)\b', r'canon \1', s)`. -/
def reSub (kw canon : Str) (s : Str) : Str := reSubF kw canon s.length false s

/-- The ordered abbreviation map of `normalize_abbreviations` (Python dicts
iterate in insertion order). -/
def abbrevMap : List (Str × Str) :=
  [("s".data, "season".data), ("se".data, "season".data), ("season".data, "season".data),
   ("pt".data, "part".data), ("part".data, "part".data),
   ("ep".data, "episode".data), ("episode".data, "episode".data), ("e".data, "episode".data),
   ("vol".data, "volume".data), ("volume".data, "volume".data),
   ("ch".data, "chapter".data), ("chapter".data, "chapter".data)]

/-- Apply the rewrites of a table in order. -/
def applyAbbrevs (l : List (Str × Str)) (s : Str) : Str :=
  l.foldl (fun acc p => reSub p.1 p.2 acc) s

/-- `normalize_abbreviations`: lower-case the string, then apply the ordered
whole-token abbreviation rewrites. -/
def normalizeAbbreviations (s : Str) : Str := applyAbbrevs abbrevMap (pyLower s)

/-- Fuel-indexed InDel edit distance (insertion and deletion cost 1, no
substitutions), the distance underlying `fuzz.ratio`; equals the classic
Levenshtein distance with substitution cost 2.  Any fuel
`≥ a.length + b.length` computes the total function. -/
def indelF : Nat → Str → Str → Nat
  | 0, a, b => a.length + b.length
  | _ + 1, [], b => b.length
  | _ + 1, a, [] => a.length
  | n + 1, c :: a, d :: b =>
    if c = d then indelF n a b
    else 1 + min (indelF n a (d :: b)) (indelF n (c :: a) b)

/-- InDel edit distance. -/
def indelDist (a b : Str) : Nat := indelF (a.length + b.length) a b

/-- `fuzz.ratio`: normalized InDel similarity scaled to `[0, 100]`; two empty
strings compare as 100. -/
def simRatio (a b : Str) : ℚ :=
  if a.length + b.length = 0 then 100
  else 100 * ((a.length + b.length : ℚ) - indelDist a b) / (a.length + b.length)

/-- All contiguous windows of length `n` of `l` (for `n ≤ l.length`). -/
def windowsOfLen (l : Str) (n : Nat) : List Str :=
  (List.range (l.length - n + 1)).map (fun i => (l.drop i).take n)

/-- `fuzz.partial_ratio` (spec §4.2): the best full-string ratio of the shorter
string against every equal-length window of the longer one. -/
def simWindow (a b : Str) : ℚ :=
  if a.length ≤ b.length then ((windowsOfLen b a.length).map (simRatio a)).foldr max 0
  else ((windowsOfLen a b.length).map (simRatio b)).foldr max 0

/-- Split on runs of whitespace, dropping empty tokens (Python `str.split()`);
`acc` holds the characters of the current token in reverse. -/
def splitWSAux : Str → Str → List Str
  | acc, [] => if acc.isEmpty then [] else [acc.reverse]
  | acc, c :: rest =>
    if c.isWhitespace then
      if acc.isEmpty then splitWSAux [] rest else acc.reverse :: splitWSAux [] rest
    else splitWSAux (c :: acc) rest

/-- Python `str.split()`. -/
def splitWS (s : Str) : List Str := splitWSAux [] s

/-- Lexicographic comparison of strings by code point (Python `<=` on `str`). -/
def lexLe : Str → Str → Bool
  | [], _ => true
  | _ :: _, [] => false
  | c :: a, d :: b => if c = d then lexLe a b else decide (c < d)

/-- Insert into a sorted list, before the first element `b` with `le a b`;
together with `sortBy` this is a stable sort: an element placed earlier in the
input ends up before every later element it compares equal to. -/
def insertSorted (le : α → α → Bool) (a : α) : List α → List α
  | [] => [a]
  | b :: l => if le a b then a :: b :: l else b :: insertSorted le a l

/-- Stable sort by the boolean comparison `le` (for a total preorder a stable
sort has a unique output, so this computes the same list as Python's
`list.sort`). -/
def sortBy (le : α → α → Bool) : List α → List α
  | [] => []
  | a :: l => insertSorted le a (sortBy le l)

/-- Join tokens with single spaces (`" ".join`). -/
def joinTokens (ts : List Str) : Str := List.intercalate [' '] ts

/-- Deduplicate keeping first occurrences; `seen` accumulates tokens met so far. -/
def dedupAux : List Str → List Str → List Str
  | _, [] => []
  | seen, a :: l => if seen.contains a then dedupAux seen l else a :: dedupAux (a :: seen) l

/-- The token set of a string (Python `set(s.split())`, as a duplicate-free list). -/
def dedupFirst (l : List Str) : List Str := dedupAux [] l

/-- `fuzz.token_sort_ratio` (spec §4.2): split on whitespace, sort the tokens,
rejoin with single spaces, full ratio. -/
def simTokenSort (a b : Str) : ℚ :=
  simRatio (joinTokens (sortBy lexLe (splitWS a))) (joinTokens (sortBy lexLe (splitWS b)))

/-- `fuzz.token_set_ratio` (spec §4.2): sorted common tokens, each side's sorted
unique remainder appended, best full ratio among the three comparisons. -/
def simTokenSet (a b : Str) : ℚ :=
  let ta := dedupFirst (splitWS a)
  let tb := dedupFirst (splitWS b)
  let inter := sortBy lexLe (ta.filter (fun t => tb.contains t))
  let da := sortBy lexLe (ta.filter (fun t => !tb.contains t))
  let db := sortBy lexLe (tb.filter (fun t => !ta.contains t))
  let s0 := joinTokens inter
  let s1 := joinTokens (inter ++ da)
  let s2 := joinTokens (inter ++ db)
  max (max (simRatio s0 s1) (simRatio s0 s2)) (simRatio s1 s2)

/-- The consonant alphabet of `phonetic_similarity`. -/
def consonantChars : Str := "bcdfghjklmnpqrstvwxyz".data

/-- The vowel alphabet of `phonetic_similarity`. -/
def vowelChars : Str := "aeiou".data

/-- `phonetic_similarity` from bot.py: 0.7 · ratio of consonant subsequences
plus 0.3 · ratio of vowel subsequences; 0 if either side has no consonants;
the vowel ratio defaults to 50 if either vowel subsequence is empty. -/
def phoneticSimilarity (s1 s2 : Str) : ℚ :=
  let c1 := (pyLower s1).filter (fun c => consonantChars.contains c)
  let c2 := (pyLower s2).filter (fun c => consonantChars.contains c)
  let v1 := (pyLower s1).filter (fun c => vowelChars.contains c)
  let v2 := (pyLower s2).filter (fun c => vowelChars.contains c)
  if c1.length = 0 ∨ c2.length = 0 then 0
  else
    let consSim := simRatio c1 c2
    let vowelSim := if ¬v1.isEmpty ∧ ¬v2.isEmpty then simRatio v1 v2 else 50
    consSim * (7 / 10) + vowelSim * (3 / 10)

/-- The articulatory-class collapse of `advanced_phonetic_match`: each class
maps to its first character, other characters pass through. -/
def simplifySound (c : Char) : Char :=
  if ("ptkbdg".data).contains c then 'p'
  else if ("fvszh".data).contains c then 'f'
  else if ("mnl".data).contains c then 'm'
  else if ("wy".data).contains c then 'w'
  else c

/-- `advanced_phonetic_match` from bot.py: strip non-alphanumerics, 100 for
identical cleaned strings, 0 if either cleaned string is empty, else the full
ratio of the class-collapsed strings. -/
def advancedPhoneticMatch (s1 s2 : Str) : ℚ :=
  let c1 := (pyLower s1).filter Char.isAlphanum
  let c2 := (pyLower s2).filter Char.isAlphanum
  if c1.isEmpty ∨ c2.isEmpty then 0
  else if c1 = c2 then 100
  else simRatio (c1.map simplifySound) (c2.map simplifySound)

/-- Python's substring test `needle in hay`. -/
def containsSub (needle hay : Str) : Bool :=
  (List.range (hay.length + 1)).any (fun i => needle.isPrefixOf (hay.drop i))

/-- The score `advanced_fuzzy_search` assigns to one title: the weighted
composite of the six signals, plus the mutually exclusive exact / prefix /
substring bonus. -/
def finalScore (qn tn : Str) : ℚ :=
  let base := simRatio qn tn * (20 / 100) + simWindow qn tn * (18 / 100)
    + simTokenSort qn tn * (15 / 100) + simTokenSet qn tn * (15 / 100)
    + phoneticSimilarity qn tn * (8 / 100) + advancedPhoneticMatch qn tn * (7 / 100)
  if tn = qn then base + 300
  else if qn.isPrefixOf tn then base + 150
  else if containsSub qn tn then base + 80
  else base

/-- A catalog entry (`{"title": ..., "file_id": ...}`). -/
structure Movie where
  title : Str
  file_id : Str
deriving DecidableEq

/-- A scored match as stored in results and in the cache.  The field `pos` is
the catalog position of the entry; the source keeps it implicit (results are
built by scanning `movies_cache` in order), it is carried here to state
ordering properties. -/
structure Scored where
  pos : Nat
  title : Str
  file_id : Str
  score : ℚ
deriving DecidableEq

/-- The mutable global state of the bot that the engine touches:
`movies_cache`, `movies_index`, `search_cache` (an insertion-ordered
dictionary, modeled as an association list), and the two counters of
`bot_stats`. -/
structure BotState where
  movies : List Movie
  moviesIndex : List (Str × List Nat)
  searchCache : List (Str × List Scored)
  totalSearches : Nat
  cacheHits : Nat
deriving DecidableEq

/-- One `movies_index[word].append(idx)` step, creating the key if absent
(Python keeps the key's position on update, appends a new key at the end). -/
def indexInsert (m : List (Str × List Nat)) (w : Str) (i : Nat) : List (Str × List Nat) :=
  if m.any (fun p => p.1 = w) then
    m.map (fun p => if p.1 = w then (p.1, p.2 ++ [i]) else p)
  else m ++ [(w, [i])]

/-- The inner loop of `build_movies_index`: walk the words of one title in
order and append the position for every word of length greater than 2. -/
def indexAddWords (i : Nat) (m : List (Str × List Nat)) (ws : List Str) : List (Str × List Nat) :=
  ws.foldl (fun acc w => if 2 < w.length then indexInsert acc w i else acc) m

/-- `build_movies_index`: for every catalog position in order, normalize the
title, split on whitespace, and index every word of length greater than 2. -/
def buildMoviesIndex (movies : List Movie) : List (Str × List Nat) :=
  movies.enum.foldl
    (fun acc p => indexAddWords p.1 acc (splitWS (normalizeAbbreviations (pyLower p.2.title)))) []

/-- Look a word up in the index (`movies_index[word]`, `[]` when absent). -/
def indexLookup (m : List (Str × List Nat)) (w : Str) : List Nat := ((m.lookup w).getD [])

/-- `add_movie`: reject a duplicate (comparing the new title stripped and
lower-cased against each stored title lower-cased), else append the entry,
rebuild the index and clear the whole search cache.  Returns the boolean
result together with the new state. -/
def addMovie (title file_id : Str) (st : BotState) : Bool × BotState :=
  if st.movies.any (fun m => pyLower m.title = pyLower (pyStrip title)) then (false, st)
  else
    (true, { st with movies := st.movies ++ [⟨title, file_id⟩]
                     moviesIndex := buildMoviesIndex (st.movies ++ [⟨title, file_id⟩])
                     searchCache := [] })

/-- Store a result under a new cache key and apply the eviction policy: if the
cache has grown beyond 1000 entries, delete the single oldest-inserted key
(`next(iter(search_cache))`, the head of the insertion-ordered dictionary). -/
def storeResult (c : List (Str × List Scored)) (k : Str) (v : List Scored) :
    List (Str × List Scored) :=
  if 1000 < (c ++ [(k, v)]).length then (c ++ [(k, v)]).tail else c ++ [(k, v)]

/-- Descending comparison on scores used to sort results
(`sort(key=lambda x: x['score'], reverse=True)`). -/
def scoreDescLe (a b : Scored) : Bool := decide (b.score ≤ a.score)

/-- The scoring loop of `advanced_fuzzy_search`: walk the catalog in order,
score every title against the normalized query, and keep the entries whose
final score exceeds 25. -/
def scoreCatalog (qn : Str) (movies : List Movie) : List Scored :=
  movies.enum.filterMap (fun p =>
    if 25 < finalScore qn (normalizeAbbreviations (pyLower p.2.title))
    then some ⟨p.1, p.2.title, p.2.file_id,
               finalScore qn (normalizeAbbreviations (pyLower p.2.title))⟩
    else none)

/-- The cache-miss path of `advanced_fuzzy_search`: normalize the query, score
the catalog, sort descending by score (stably), truncate to `limit`. -/
def computeResults (query : Str) (movies : List Movie) (limit : Nat) : List Scored :=
  (sortBy scoreDescLe
    (scoreCatalog (normalizeAbbreviations (pyStrip (pyLower query))) movies)).take limit

/-- `advanced_fuzzy_search(query, limit)`: empty query or empty catalog returns
`[]`; a cache hit returns the cached list truncated to `limit`; otherwise the
catalog is scored and the post-truncation result list is stored under the
cache key (the trimmed lower-cased raw query), evicting the oldest key if the
cache overflows. -/
def advancedFuzzySearch (query : Str) (limit : Nat) (st : BotState) :
    List Scored × BotState :=
  if query.isEmpty || st.movies.isEmpty then ([], st)
  else
    match st.searchCache.lookup (pyStrip (pyLower query)) with
    | some cached => (cached.take limit, { st with cacheHits := st.cacheHits + 1 })
    | none =>
      (computeResults query st.movies limit,
       { st with totalSearches := st.totalSearches + 1
                 searchCache := storeResult st.searchCache (pyStrip (pyLower query))
                   (computeResults query st.movies limit) })

/-- The order that C6 asserts of returned sequences: `a` ranks before `b` when
its score is at least `b`'s, and on equal scores when its catalog position is
smaller. -/
def rankedBefore (a b : Scored) : Prop :=
  b.score ≤ a.score ∧ (b.score = a.score → a.pos < b.pos)

/-- `noMatch kw b s`: scanning `s` with previous-character-is-word flag `b`,
the pattern `\bkw(\d+)\b` matches nowhere.  On such strings `reSubF` is the
identity. -/
def noMatch (kw : Str) : Bool → Str → Prop
  | _, [] => True
  | b, c :: rest => (b = false → tryAbbrev kw (c :: rest) = none) ∧ noMatch kw (wordChar c) rest

/-- The lower-case letters: every pattern keyword and every replacement word
of the abbreviation map is made of these. -/
def letterChars : Str := "abcdefghijklmnopqrstuvwxyz".data

/-- A nonempty all-lower-case-letter string (the shape of every pattern
keyword and every replacement word of the abbreviation map). -/
def alphaStr (w : Str) : Prop := w ≠ [] ∧ ∀ c ∈ w, c ∈ letterChars

/-! ## Theorems -/

/-- C7: for every raw query, every limit, and every catalog and cache state,
the sequence returned by `advanced_fuzzy_search(q, limit)` has length at most
`limit`, on both the cache-hit path and the full-scoring path. -/
theorem search_length_le_limit (q : Str) (limit : Nat) (st : BotState) :
    ((advancedFuzzySearch q limit st).1).length ≤ limit := by
  unfold advancedFuzzySearch
  split
  · simp
  · split
    · simp [List.length_take_le]
    · unfold computeResults
      simp [List.length_take_le]

/-- C5: when storing a result under a new cache key pushes the cache beyond
its capacity of 1000 entries, the new cache is exactly the old one minus its
single oldest (head) key, plus the new key at the end: exactly one key is
evicted, it is the oldest by insertion order, and every other key remains. -/
theorem storeResult_evicts_single_oldest (c : List (Str × List Scored)) (k : Str)
    (v : List Scored) (h : 1000 ≤ c.length) :
    storeResult c k v = c.tail ++ [(k, v)] := by
  unfold storeResult
  rw [if_pos]
  · cases c with
    | nil => simp at h
    | cons a t => simp
  · simp only [List.length_append, List.length_singleton]
    omega

/-- Witness for C5 at a concrete 1000-entry cache. -/
theorem storeResult_evicts_single_oldest_witness :
    1000 ≤ (List.replicate 1000 (("k".data : Str), ([] : List Scored))).length ∧
    storeResult (List.replicate 1000 ("k".data, [])) "q".data [] =
      (List.replicate 1000 (("k".data : Str), ([] : List Scored))).tail ++ [("q".data, [])] :=
  ⟨by rw [List.length_replicate], storeResult_evicts_single_oldest _ _ _ (by rw [List.length_replicate])⟩

/-- C1 fails on the code: the duplicate check compares the new title stripped
and lower-cased against stored titles lower-cased but NOT stripped.  With the
entry titled `" a"` in the catalog (equal to `"a"` up to case folding and
trimming), `add_movie("a", ...)` returns `True` and grows the catalog. -/
theorem addMovie_trimmed_duplicate_counterexample :
    pyLower (pyStrip " a".data) = pyLower (pyStrip "a".data) ∧
    (addMovie "a".data "y".data ⟨[⟨" a".data, "x".data⟩], [], [], 0, 0⟩).1 = true ∧
    (addMovie "a".data "y".data ⟨[⟨" a".data, "x".data⟩], [], [], 0, 0⟩).2.movies.length = 2 := by
  decide

/-- C1 as amended: if an entry whose title LOWER-CASED (without trimming)
equals the new title trimmed and lower-cased is already in the catalog, then
`add_movie` returns false and leaves the state (in particular the catalog
length) unchanged; inserting the same already-trimmed title twice is therefore
a no-op the second time. -/
theorem addMovie_duplicate_noop (t f : Str) (st : BotState)
    (h : ∃ m ∈ st.movies, pyLower m.title = pyLower (pyStrip t)) :
    addMovie t f st = (false, st) := by
  unfold addMovie
  rw [if_pos]
  obtain ⟨m, hm, he⟩ := h
  exact List.any_eq_true.mpr ⟨m, hm, decide_eq_true he⟩

/-- Witness for the amended C1 at a concrete duplicate. -/
theorem addMovie_duplicate_noop_witness :
    (∃ m ∈ ([⟨"abc".data, "x".data⟩] : List Movie),
        pyLower m.title = pyLower (pyStrip "ABC ".data)) ∧
    addMovie "ABC ".data "y".data ⟨[⟨"abc".data, "x".data⟩], [], [], 0, 0⟩ =
      (false, ⟨[⟨"abc".data, "x".data⟩], [], [], 0, 0⟩) :=
  ⟨by decide, addMovie_duplicate_noop _ _ _ (by decide)⟩

/-- Looking up a key absent from `c` after `storeResult` finds the freshly
stored value: the new key is appended at the end and eviction only ever
removes the head. -/
theorem lookup_storeResult (c : List (Str × List Scored)) (k : Str) (v : List Scored)
    (h : c.lookup k = none) : (storeResult c k v).lookup k = some v := by
  unfold storeResult
  split
  · cases c with
    | nil =>
      rename_i hlen
      simp at hlen
    | cons a t =>
      simp only [List.cons_append, List.tail_cons]
      rw [List.lookup_append]
      have ht : t.lookup k = none := by
        rw [List.lookup_eq_none_iff] at h ⊢
        intro p hp
        exact h p (List.mem_cons_of_mem _ hp)
      rw [ht]
      simp
  · rw [List.lookup_append, h]
    simp

/-- Truncating a computed result list to its own limit is the identity. -/
theorem computeResults_take_self (q : Str) (movies : List Movie) (lim : Nat) :
    (computeResults q movies lim).take lim = computeResults q movies lim := by
  unfold computeResults
  rw [List.take_take, min_self]

/-- C4 as amended: every successful insert clears the entire result cache; and
two consecutive searches whose raw queries are both non-empty and share the
cache key (trimmed, lower-cased raw query), with no catalog mutation between
them, return identical ordered result sequences.  (Non-emptiness of the raw
queries is needed: an empty raw query returns `[]` without consulting the
cache, even when its cache key `""` holds a nonempty cached list.) -/
theorem insert_clears_cache_and_repeat_search_stable :
    (∀ t f st, (addMovie t f st).1 = true → (addMovie t f st).2.searchCache = []) ∧
    (∀ q1 q2 lim st, q1.isEmpty = false → q2.isEmpty = false →
      pyStrip (pyLower q2) = pyStrip (pyLower q1) →
      (advancedFuzzySearch q2 lim ((advancedFuzzySearch q1 lim st).2)).1 =
        (advancedFuzzySearch q1 lim st).1) := by
  constructor
  · intro t f st h
    unfold addMovie at h ⊢
    split at h
    · exact absurd h (by simp)
    · rename_i hc
      rw [if_neg hc]
  · intro q1 q2 lim st h1 h2 hk
    cases hm : st.movies.isEmpty with
    | true => simp [advancedFuzzySearch, hm]
    | false =>
      have hg1 : (q1.isEmpty || st.movies.isEmpty) = false := by rw [h1, hm]; rfl
      have hg2 : (q2.isEmpty || st.movies.isEmpty) = false := by rw [h2, hm]; rfl
      cases hl : List.lookup (pyStrip (pyLower q1)) st.searchCache with
      | some cached => simp [advancedFuzzySearch, hg1, hg2, hk, hl]
      | none =>
        simp only [advancedFuzzySearch, hg1, hg2, hk, hl, Bool.false_eq_true, if_false]
        rw [lookup_storeResult _ _ _ hl]
        simp [computeResults_take_self]

/-- Witness for the amended C4 at a concrete insert and a concrete pair of
same-key searches with different raw queries. -/
theorem insert_clears_cache_and_repeat_search_stable_witness :
    ((addMovie "a".data "f".data ⟨[], [], [("x".data, [])], 0, 0⟩).1 = true ∧
      (addMovie "a".data "f".data ⟨[], [], [("x".data, [])], 0, 0⟩).2.searchCache = []) ∧
    ((("a".data : Str).isEmpty = false ∧ (" A ".data : Str).isEmpty = false ∧
        pyStrip (pyLower " A ".data) = pyStrip (pyLower "a".data)) ∧
      (advancedFuzzySearch " A ".data 5
          ((advancedFuzzySearch "a".data 5 ⟨[⟨"ab".data, "f".data⟩], [], [], 0, 0⟩).2)).1 =
        (advancedFuzzySearch "a".data 5 ⟨[⟨"ab".data, "f".data⟩], [], [], 0, 0⟩).1) :=
  ⟨⟨by decide, insert_clears_cache_and_repeat_search_stable.1 _ _ _ (by decide)⟩,
   ⟨⟨by decide, by decide, by decide⟩,
    insert_clears_cache_and_repeat_search_stable.2 "a".data " A ".data 5 _
      (by decide) (by decide) (by decide)⟩⟩

/-- C9: if `search(q1, L)` stored its result in the cache (its raw query and
the catalog were non-empty and its key missed the cache, so the
post-truncation list was cached), a later search with the same cache key and
any larger limit still returns at most `L` entries: the cache stores the
post-truncation list and cache hits never recompute. -/
theorem cached_truncation_caps_larger_limit (q1 q2 : Str) (L Lp : Nat) (st : BotState)
    (h1 : q1.isEmpty = false) (hm : st.movies.isEmpty = false)
    (hmiss : st.searchCache.lookup (pyStrip (pyLower q1)) = none)
    (hk : pyStrip (pyLower q2) = pyStrip (pyLower q1)) (_hL : L < Lp) :
    ((advancedFuzzySearch q2 Lp ((advancedFuzzySearch q1 L st).2)).1).length ≤ L := by
  have hg1 : (q1.isEmpty || st.movies.isEmpty) = false := by rw [h1, hm]; rfl
  cases h2 : q2.isEmpty with
  | true => simp [advancedFuzzySearch, h2]
  | false =>
    have hg2 : (q2.isEmpty || st.movies.isEmpty) = false := by rw [h2, hm]; rfl
    simp only [advancedFuzzySearch, hg1, hg2, hk, hmiss, Bool.false_eq_true, if_false]
    rw [lookup_storeResult _ _ _ hmiss]
    have hlen : (computeResults q1 st.movies L).length ≤ L := by
      unfold computeResults
      simp [List.length_take_le]
    calc ((computeResults q1 st.movies L).take Lp).length
        ≤ (computeResults q1 st.movies L).length := by
          rw [List.length_take]
          omega
      _ ≤ L := hlen

/-- Witness for C9 at a concrete state, a same-key second query, and limits. -/
theorem cached_truncation_caps_larger_limit_witness :
    (("abc".data : Str).isEmpty = false ∧
      (BotState.movies ⟨[⟨"abc".data, "f".data⟩], [], [], 0, 0⟩).isEmpty = false ∧
      (BotState.searchCache ⟨[⟨"abc".data, "f".data⟩], [], [], 0, 0⟩).lookup
        (pyStrip (pyLower "abc".data)) = none ∧
      pyStrip (pyLower " ABC".data) = pyStrip (pyLower "abc".data) ∧
      (0 : Nat) < 1) ∧
    ((advancedFuzzySearch " ABC".data 1
        ((advancedFuzzySearch "abc".data 0 ⟨[⟨"abc".data, "f".data⟩], [], [], 0, 0⟩).2)).1).length ≤ 0 :=
  ⟨⟨by decide, by decide, by decide, by decide, by decide⟩,
   cached_truncation_caps_larger_limit _ _ _ _ _
     (by decide) (by decide) (by decide) (by decide) (by decide)⟩

/-- Membership in an insertion-sorted list. -/
theorem mem_insertSorted {α} {le : α → α → Bool} {a x : α} :
    ∀ {l : List α}, x ∈ insertSorted le a l ↔ x = a ∨ x ∈ l := by
  intro l
  induction l with
  | nil => simp [insertSorted]
  | cons b t ih =>
    simp only [insertSorted]
    by_cases h : le a b = true
    · rw [if_pos h]
      simp
    · rw [if_neg h]
      simp only [List.mem_cons, ih]
      tauto

/-- Membership in a `sortBy`-sorted list. -/
theorem mem_sortBy {α} {le : α → α → Bool} {x : α} :
    ∀ {l : List α}, x ∈ sortBy le l ↔ x ∈ l := by
  intro l
  induction l with
  | nil => simp [sortBy]
  | cons a t ih =>
    simp only [sortBy, mem_insertSorted, ih, List.mem_cons]

/-- Inserting an element whose catalog position precedes everything in a
stably sorted list keeps the list stably sorted: the element passes over
strictly greater scores and lands before the first less-or-equal score, hence
before every element of equal score. -/
theorem pairwise_insertSorted (a : Scored) (l : List Scored)
    (hl : l.Pairwise rankedBefore) (ha : ∀ b ∈ l, a.pos < b.pos) :
    (insertSorted scoreDescLe a l).Pairwise rankedBefore := by
  induction l with
  | nil => simp [insertSorted]
  | cons b t ih =>
    rw [List.pairwise_cons] at hl
    obtain ⟨hbt, ht⟩ := hl
    simp only [insertSorted]
    by_cases h : scoreDescLe a b = true
    · rw [if_pos h]
      have hab : b.score ≤ a.score := by simpa [scoreDescLe] using h
      constructor
      · intro x hx
        rcases List.mem_cons.mp hx with rfl | hx'
        · exact ⟨hab, fun _ => ha x (List.mem_cons_self _ _)⟩
        · exact ⟨le_trans (hbt x hx').1 hab, fun _ => ha x (List.mem_cons_of_mem _ hx')⟩
      · exact List.Pairwise.cons hbt ht
    · rw [if_neg h]
      have hba : a.score < b.score := by
        have hle : ¬ b.score ≤ a.score := by simpa [scoreDescLe] using h
        exact lt_of_not_le hle
      constructor
      · intro x hx
        rcases mem_insertSorted.mp hx with rfl | hx'
        · exact ⟨le_of_lt hba, fun he => absurd he (ne_of_lt hba)⟩
        · exact hbt x hx'
      · exact ih ht (fun x hx => ha x (List.mem_cons_of_mem _ hx))

/-- Stably sorting a list with strictly increasing catalog positions yields a
list that is sorted descending by score with equal scores in position order. -/
theorem pairwise_sortBy (l : List Scored) (h : l.Pairwise (fun a b => a.pos < b.pos)) :
    (sortBy scoreDescLe l).Pairwise rankedBefore := by
  induction l with
  | nil => simp [sortBy]
  | cons a t ih =>
    rw [List.pairwise_cons] at h
    exact pairwise_insertSorted a _ (ih h.2) (fun b hb => h.1 b (mem_sortBy.mp hb))

/-- Every pair of an enumeration from `n` has first component at least `n`. -/
theorem le_fst_of_mem_enumFrom {α} {p : Nat × α} :
    ∀ {l : List α} {n : Nat}, p ∈ l.enumFrom n → n ≤ p.1 := by
  intro l
  induction l with
  | nil => intro n h; simp at h
  | cons a t ih =>
    intro n h
    rcases List.mem_cons.mp h with rfl | h'
    · exact le_rfl
    · exact Nat.le_of_succ_le (ih h')

/-- Enumerations carry strictly increasing first components. -/
theorem pairwise_fst_enumFrom {α} :
    ∀ (l : List α) (n : Nat), (l.enumFrom n).Pairwise (fun p q => p.1 < q.1) := by
  intro l
  induction l with
  | nil => intro n; simp
  | cons a t ih =>
    intro n
    rw [List.enumFrom_cons, List.pairwise_cons]
    exact ⟨fun q hq => Nat.lt_of_succ_le (le_fst_of_mem_enumFrom hq), ih (n + 1)⟩

/-- The scored candidate list is built in catalog order, so its ghost
positions strictly increase. -/
theorem pairwise_pos_scoreCatalog (qn : Str) (movies : List Movie) :
    (scoreCatalog qn movies).Pairwise (fun a b => a.pos < b.pos) := by
  unfold scoreCatalog
  rw [List.pairwise_filterMap]
  have henum : (movies.enum).Pairwise (fun p q => p.1 < q.1) := pairwise_fst_enumFrom movies 0
  refine henum.imp ?_
  intro p q hpq b hb b' hb'
  have hbp : b.pos = p.1 := by
    split at hb
    · simp only [Option.mem_def, Option.some.injEq] at hb
      rw [← hb]
    · simp at hb
  have hbq : b'.pos = q.1 := by
    split at hb'
    · simp only [Option.mem_def, Option.some.injEq] at hb'
      rw [← hb']
    · simp at hb'
  rw [hbp, hbq]
  exact hpq

/-- The scoring path's result is sorted in non-increasing order of score, with
equal scores in catalog-insertion order. -/
theorem computeResults_pairwise (q : Str) (movies : List Movie) (lim : Nat) :
    (computeResults q movies lim).Pairwise rankedBefore := by
  unfold computeResults
  exact List.Pairwise.sublist (List.take_sublist _ _)
    (pairwise_sortBy _ (pairwise_pos_scoreCatalog _ _))

/-- A successful lookup finds an entry of the list. -/
theorem lookup_mem {α β} [BEq α] :
    ∀ {c : List (α × β)} {k : α} {v : β}, c.lookup k = some v → ∃ k', (k', v) ∈ c := by
  intro c
  induction c with
  | nil => intro k v h; simp [List.lookup] at h
  | cons a t ih =>
    intro k v h
    obtain ⟨k', v'⟩ := a
    rw [List.lookup_cons] at h
    split at h
    · obtain rfl := Option.some.inj h
      exact ⟨k', List.mem_cons_self _ _⟩
    · obtain ⟨k'', hk''⟩ := ih h
      exact ⟨k'', List.mem_cons_of_mem _ hk''⟩

/-- Every entry of the cache after a store is an old entry or the new one. -/
theorem mem_storeResult {c : List (Str × List Scored)} {k : Str} {v : List Scored}
    {kv : Str × List Scored} (h : kv ∈ storeResult c k v) : kv ∈ c ∨ kv = (k, v) := by
  unfold storeResult at h
  split at h
  · have h' := List.mem_of_mem_tail h
    rcases List.mem_append.mp h' with h'' | h''
    · exact Or.inl h''
    · exact Or.inr (List.mem_singleton.mp h'')
  · rcases List.mem_append.mp h with h'' | h''
    · exact Or.inl h''
    · exact Or.inr (List.mem_singleton.mp h'')

/-- C6: the sequence returned by search is sorted in non-increasing order of
score, and equal-score matches appear in the order of their entries' catalog
insertion positions.  Stated for every reachable cache: the scoring path
always produces such a sequence; a search on any state whose cached lists all
have this shape returns such a sequence and leaves every cached list with this
shape; and insert preserves the cache shape (it clears the cache).  Since the
initial cache is empty, every search in every reachable state returns a
sorted, stably tie-broken sequence on both the hit and the scoring path. -/
theorem search_sorted_stable :
    (∀ (q : Str) (movies : List Movie) (lim : Nat),
      (computeResults q movies lim).Pairwise rankedBefore) ∧
    (∀ (q : Str) (lim : Nat) (st : BotState),
      (∀ kv ∈ st.searchCache, kv.2.Pairwise rankedBefore) →
      (advancedFuzzySearch q lim st).1.Pairwise rankedBefore ∧
        ∀ kv ∈ (advancedFuzzySearch q lim st).2.searchCache, kv.2.Pairwise rankedBefore) ∧
    (∀ (t f : Str) (st : BotState),
      (∀ kv ∈ st.searchCache, kv.2.Pairwise rankedBefore) →
      ∀ kv ∈ (addMovie t f st).2.searchCache, kv.2.Pairwise rankedBefore) := by
  refine ⟨computeResults_pairwise, ?_, ?_⟩
  · intro q lim st hinv
    cases hg : (q.isEmpty || st.movies.isEmpty) with
    | true =>
      constructor
      · simp [advancedFuzzySearch, hg]
      · intro kv hkv
        apply hinv
        simpa [advancedFuzzySearch, hg] using hkv
    | false =>
      cases hl : List.lookup (pyStrip (pyLower q)) st.searchCache with
      | some cached =>
        have hc : cached.Pairwise rankedBefore := by
          obtain ⟨k', hk'⟩ := lookup_mem hl
          exact hinv _ hk'
        constructor
        · simp only [advancedFuzzySearch, hg, Bool.false_eq_true, if_false, hl]
          exact List.Pairwise.sublist (List.take_sublist _ _) hc
        · intro kv hkv
          apply hinv
          simpa [advancedFuzzySearch, hg, hl] using hkv
      | none =>
        constructor
        · simp only [advancedFuzzySearch, hg, Bool.false_eq_true, if_false, hl]
          exact computeResults_pairwise q st.movies lim
        · intro kv hkv
          have hkv' : kv ∈ storeResult st.searchCache (pyStrip (pyLower q))
              (computeResults q st.movies lim) := by
            simpa [advancedFuzzySearch, hg, hl] using hkv
          rcases mem_storeResult hkv' with h' | h'
          · exact hinv _ h'
          · rw [h']
            exact computeResults_pairwise q st.movies lim
  · intro t f st hinv
    unfold addMovie
    split
    · exact hinv
    · intro kv hkv
      simp at hkv

/-- Witness for C6 at a concrete state with an (initially empty) cache. -/
theorem search_sorted_stable_witness :
    (∀ kv ∈ (BotState.searchCache ⟨[⟨"ab".data, "f".data⟩], [], [], 0, 0⟩),
        kv.2.Pairwise rankedBefore) ∧
    (advancedFuzzySearch "a".data 5 ⟨[⟨"ab".data, "f".data⟩], [], [], 0, 0⟩).1.Pairwise
      rankedBefore :=
  ⟨by simp, (search_sorted_stable.2.1 "a".data 5 _ (by simp)).1⟩

/-- The InDel distance never exceeds the total length (delete one side, insert
the other). -/
theorem indelF_le : ∀ (n : Nat) (a b : Str), a.length + b.length ≤ n →
    indelF n a b ≤ a.length + b.length := by
  intro n
  induction n with
  | zero => intro a b _; exact le_rfl
  | succ n ih =>
    intro a b h
    cases a with
    | nil => simp [indelF]
    | cons c a' =>
      cases b with
      | nil => simp [indelF]
      | cons d b' =>
        simp only [indelF, List.length_cons] at h ⊢
        by_cases hcd : c = d
        · rw [if_pos hcd]
          have := ih a' b' (by omega)
          omega
        · rw [if_neg hcd]
          have h1 := ih a' (d :: b') (by simp only [List.length_cons]; omega)
          have h2 := ih (c :: a') b' (by simp only [List.length_cons]; omega)
          simp only [List.length_cons] at h1 h2
          omega

/-- A string is at InDel distance 0 from itself. -/
theorem indelF_self : ∀ (n : Nat) (a : Str), a.length + a.length ≤ n → indelF n a a = 0 := by
  intro n
  induction n with
  | zero =>
    intro a h
    cases a with
    | nil => rfl
    | cons c a' => simp at h
  | succ n ih =>
    intro a h
    cases a with
    | nil => rfl
    | cons c a' =>
      simp only [indelF, if_pos rfl]
      exact ih a' (by simp only [List.length_cons] at h; omega)

theorem indelDist_le (a b : Str) : indelDist a b ≤ a.length + b.length :=
  indelF_le _ a b le_rfl

theorem indelDist_self (a : Str) : indelDist a a = 0 :=
  indelF_self _ a le_rfl

theorem simRatio_nonneg (a b : Str) : 0 ≤ simRatio a b := by
  unfold simRatio
  split
  · norm_num
  · rename_i h
    have hd : (indelDist a b : ℚ) ≤ (a.length : ℚ) + (b.length : ℚ) := by
      exact_mod_cast indelDist_le a b
    have hpos : (0 : ℚ) < (a.length : ℚ) + (b.length : ℚ) := by
      have : 0 < a.length + b.length := Nat.pos_of_ne_zero h
      exact_mod_cast this
    apply div_nonneg _ (le_of_lt hpos)
    nlinarith

theorem simRatio_le_100 (a b : Str) : simRatio a b ≤ 100 := by
  unfold simRatio
  split
  · norm_num
  · rename_i h
    have hd : (0 : ℚ) ≤ (indelDist a b : ℚ) := by positivity
    have hpos : (0 : ℚ) < (a.length : ℚ) + (b.length : ℚ) := by
      have : 0 < a.length + b.length := Nat.pos_of_ne_zero h
      exact_mod_cast this
    rw [div_le_iff₀ hpos]
    nlinarith

theorem simRatio_self (a : Str) : simRatio a a = 100 := by
  unfold simRatio
  split
  · rfl
  · rename_i h
    rw [indelDist_self]
    have hpos : (0 : ℚ) < (a.length : ℚ) + (a.length : ℚ) := by
      have : 0 < a.length + a.length := Nat.pos_of_ne_zero h
      exact_mod_cast this
    push_cast
    field_simp

theorem foldr_max_nonneg (l : List ℚ) : 0 ≤ l.foldr max 0 := by
  induction l with
  | nil => exact le_rfl
  | cons a t ih => exact le_max_of_le_right ih

theorem foldr_max_le (l : List ℚ) (c : ℚ) (h : ∀ x ∈ l, x ≤ c) (h0 : 0 ≤ c) :
    l.foldr max 0 ≤ c := by
  induction l with
  | nil => exact h0
  | cons a t ih =>
    exact max_le (h a (List.mem_cons_self _ _)) (ih (fun x hx => h x (List.mem_cons_of_mem _ hx)))

theorem simWindow_nonneg (a b : Str) : 0 ≤ simWindow a b := by
  unfold simWindow
  split <;> exact foldr_max_nonneg _

theorem simWindow_le_100 (a b : Str) : simWindow a b ≤ 100 := by
  unfold simWindow
  split <;>
  · apply foldr_max_le _ _ _ (by norm_num)
    intro x hx
    obtain ⟨w, _, rfl⟩ := List.mem_map.mp hx
    exact simRatio_le_100 _ _

theorem simWindow_self (a : Str) : simWindow a a = 100 := by
  unfold simWindow
  rw [if_pos le_rfl]
  have hw : windowsOfLen a a.length = [a] := by
    unfold windowsOfLen
    rw [Nat.sub_self]
    simp [List.range_succ]
  rw [hw]
  simp [simRatio_self]

theorem simTokenSort_nonneg (a b : Str) : 0 ≤ simTokenSort a b := simRatio_nonneg _ _

theorem simTokenSort_le_100 (a b : Str) : simTokenSort a b ≤ 100 := simRatio_le_100 _ _

theorem simTokenSort_self (a : Str) : simTokenSort a a = 100 := simRatio_self _

theorem simTokenSet_nonneg (a b : Str) : 0 ≤ simTokenSet a b := by
  simp only [simTokenSet]
  exact le_max_of_le_left (le_max_of_le_left (simRatio_nonneg _ _))

theorem simTokenSet_le_100 (a b : Str) : simTokenSet a b ≤ 100 := by
  simp only [simTokenSet]
  exact max_le (max_le (simRatio_le_100 _ _) (simRatio_le_100 _ _)) (simRatio_le_100 _ _)

theorem simTokenSet_self (a : Str) : simTokenSet a a = 100 := by
  simp only [simTokenSet]
  have hfil : (dedupFirst (splitWS a)).filter
      (fun t => (dedupFirst (splitWS a)).contains t) = dedupFirst (splitWS a) := by
    rw [List.filter_eq_self]
    intro t ht
    simpa using ht
  have hnil : (dedupFirst (splitWS a)).filter
      (fun t => !(dedupFirst (splitWS a)).contains t) = [] := by
    rw [List.filter_eq_nil_iff]
    intro t ht
    simpa using ht
  rw [hfil, hnil]
  simp [sortBy, simRatio_self]

theorem phoneticSimilarity_nonneg (a b : Str) : 0 ≤ phoneticSimilarity a b := by
  simp only [phoneticSimilarity]
  split
  · norm_num
  · have h1 := simRatio_nonneg ((pyLower a).filter (fun c => consonantChars.contains c))
      ((pyLower b).filter (fun c => consonantChars.contains c))
    split
    · have h2 := simRatio_nonneg ((pyLower a).filter (fun c => vowelChars.contains c))
        ((pyLower b).filter (fun c => vowelChars.contains c))
      nlinarith
    · nlinarith

theorem phoneticSimilarity_le_100 (a b : Str) : phoneticSimilarity a b ≤ 100 := by
  simp only [phoneticSimilarity]
  split
  · norm_num
  · have h1 := simRatio_le_100 ((pyLower a).filter (fun c => consonantChars.contains c))
      ((pyLower b).filter (fun c => consonantChars.contains c))
    split
    · have h2 := simRatio_le_100 ((pyLower a).filter (fun c => vowelChars.contains c))
        ((pyLower b).filter (fun c => vowelChars.contains c))
      nlinarith
    · nlinarith

theorem advancedPhoneticMatch_nonneg (a b : Str) : 0 ≤ advancedPhoneticMatch a b := by
  simp only [advancedPhoneticMatch]
  split
  · norm_num
  · split
    · norm_num
    · exact simRatio_nonneg _ _

theorem advancedPhoneticMatch_le_100 (a b : Str) : advancedPhoneticMatch a b ≤ 100 := by
  simp only [advancedPhoneticMatch]
  split
  · norm_num
  · split
    · norm_num
    · exact simRatio_le_100 _ _

/-- An exactly matching normalized title scores at least 368: the four ratio
signals are 100 each (weights 0.20+0.18+0.15+0.15), the phonetic signals are
nonnegative, and the exact bonus adds 300. -/
theorem finalScore_self_ge (qn : Str) : 368 ≤ finalScore qn qn := by
  simp only [finalScore]
  rw [if_pos trivial, simRatio_self, simWindow_self, simTokenSort_self, simTokenSet_self]
  have h5 := phoneticSimilarity_nonneg qn qn
  have h6 := advancedPhoneticMatch_nonneg qn qn
  linarith

/-- A non-exactly matching normalized title scores at most 233: the weighted
composite is at most 83 and the bonus is at most 150. -/
theorem finalScore_ne_le (qn tn : Str) (h : tn ≠ qn) : finalScore qn tn ≤ 233 := by
  simp only [finalScore]
  rw [if_neg h]
  have r1 := simRatio_le_100 qn tn
  have r2 := simWindow_le_100 qn tn
  have r3 := simTokenSort_le_100 qn tn
  have r4 := simTokenSet_le_100 qn tn
  have r5 := phoneticSimilarity_le_100 qn tn
  have r6 := advancedPhoneticMatch_le_100 qn tn
  split
  · linarith
  · split
    · linarith
    · linarith

/-- C3: for every non-empty query, a catalog entry whose normalized title
equals the normalized query receives a final score strictly greater than that
of every entry whose normalized title differs from the normalized query:
exact matches always outrank fuzzy ones. -/
theorem exact_match_outranks_fuzzy (q : Str) (m1 m2 : Movie) (_hq : q ≠ [])
    (h1 : normalizeAbbreviations (pyLower m1.title) = normalizeAbbreviations (pyStrip (pyLower q)))
    (h2 : normalizeAbbreviations (pyLower m2.title) ≠ normalizeAbbreviations (pyStrip (pyLower q))) :
    finalScore (normalizeAbbreviations (pyStrip (pyLower q)))
        (normalizeAbbreviations (pyLower m2.title)) <
      finalScore (normalizeAbbreviations (pyStrip (pyLower q)))
        (normalizeAbbreviations (pyLower m1.title)) := by
  rw [h1]
  exact lt_of_le_of_lt (finalScore_ne_le _ _ h2)
    (lt_of_lt_of_le (by norm_num) (finalScore_self_ge _))

/-- Witness for C3 at a concrete catalog pair. -/
theorem exact_match_outranks_fuzzy_witness :
    ("ab".data : Str) ≠ [] ∧
    normalizeAbbreviations (pyLower (Movie.title ⟨"ab".data, "f".data⟩)) =
      normalizeAbbreviations (pyStrip (pyLower "ab".data)) ∧
    normalizeAbbreviations (pyLower (Movie.title ⟨"xy".data, "g".data⟩)) ≠
      normalizeAbbreviations (pyStrip (pyLower "ab".data)) ∧
    finalScore (normalizeAbbreviations (pyStrip (pyLower "ab".data)))
        (normalizeAbbreviations (pyLower (Movie.title ⟨"xy".data, "g".data⟩))) <
      finalScore (normalizeAbbreviations (pyStrip (pyLower "ab".data)))
        (normalizeAbbreviations (pyLower (Movie.title ⟨"ab".data, "f".data⟩))) :=
  ⟨by decide, by decide, by decide,
   exact_match_outranks_fuzzy "ab".data ⟨"ab".data, "f".data⟩ ⟨"xy".data, "g".data⟩
     (by decide) (by decide) (by decide)⟩

/-- When the normalized query is a proper prefix of the normalized title, the
final score collects the +150 prefix bonus on top of a nonnegative weighted
composite, so it is at least 150. -/
theorem finalScore_prefix_ge (qn tn : Str) (hne : tn ≠ qn)
    (hpre : qn.isPrefixOf tn = true) : 150 ≤ finalScore qn tn := by
  have h1 := simRatio_nonneg qn tn
  have h2 := simWindow_nonneg qn tn
  have h3 := simTokenSort_nonneg qn tn
  have h4 := simTokenSet_nonneg qn tn
  have h5 := phoneticSimilarity_nonneg qn tn
  have h6 := advancedPhoneticMatch_nonneg qn tn
  simp only [finalScore]
  rw [if_neg hne, if_pos hpre]
  linarith

/-- Scoring a one-entry catalog keeps the entry when its score clears the
threshold. -/
theorem scoreCatalog_singleton (qn : Str) (m : Movie)
    (h : 25 < finalScore qn (normalizeAbbreviations (pyLower m.title))) :
    scoreCatalog qn [m] = [⟨0, m.title, m.file_id,
      finalScore qn (normalizeAbbreviations (pyLower m.title))⟩] := by
  unfold scoreCatalog
  rw [show ([m] : List Movie).enum = [(0, m)] from rfl, List.filterMap_cons]
  rw [if_pos h]
  rfl

/-- C4 fails as literally stated: the raw queries `" "` and `""` share the
cache key `""` and no catalog mutation happens between the calls, yet the
first search caches and returns a nonempty list (the empty normalized query
is a prefix of every normalized title, so every entry earns the +150 prefix
bonus and passes the score threshold of 25) while the second returns `[]`,
because an empty raw query short-circuits before the cache is consulted. -/
theorem same_key_searches_counterexample :
    pyStrip (pyLower " ".data) = pyStrip (pyLower "".data) ∧
    ¬ ((advancedFuzzySearch "".data 15
          ((advancedFuzzySearch " ".data 15 ⟨[⟨"x".data, "f".data⟩], [], [], 0, 0⟩).2)).1 =
        (advancedFuzzySearch " ".data 15 ⟨[⟨"x".data, "f".data⟩], [], [], 0, 0⟩).1) := by
  have hqn : normalizeAbbreviations (pyStrip (pyLower " ".data)) = [] := by decide
  have htn : normalizeAbbreviations (pyLower "x".data) = "x".data := by decide
  have h25 : 25 < finalScore (normalizeAbbreviations (pyStrip (pyLower " ".data)))
      (normalizeAbbreviations (pyLower "x".data)) := by
    rw [hqn, htn]
    exact lt_of_lt_of_le (by norm_num)
      (finalScore_prefix_ge [] "x".data (by decide) (by decide))
  have hcr : computeResults " ".data [⟨"x".data, "f".data⟩] 15 =
      [⟨0, "x".data, "f".data, finalScore (normalizeAbbreviations (pyStrip (pyLower " ".data)))
          (normalizeAbbreviations (pyLower "x".data))⟩] := by
    unfold computeResults
    rw [scoreCatalog_singleton (normalizeAbbreviations (pyStrip (pyLower " ".data)))
      ⟨"x".data, "f".data⟩ h25]
    rfl
  have hfirst : (advancedFuzzySearch " ".data 15 ⟨[⟨"x".data, "f".data⟩], [], [], 0, 0⟩).1 =
      [⟨0, "x".data, "f".data, finalScore (normalizeAbbreviations (pyStrip (pyLower " ".data)))
          (normalizeAbbreviations (pyLower "x".data))⟩] := by
    rw [show (advancedFuzzySearch " ".data 15 ⟨[⟨"x".data, "f".data⟩], [], [], 0, 0⟩).1 =
        computeResults " ".data [⟨"x".data, "f".data⟩] 15 from rfl, hcr]
  have hsecond : (advancedFuzzySearch "".data 15
      ((advancedFuzzySearch " ".data 15 ⟨[⟨"x".data, "f".data⟩], [], [], 0, 0⟩).2)).1 = [] := rfl
  constructor
  · decide
  · intro heq
    rw [hsecond, hfirst] at heq
    exact absurd heq (by simp)

/-- Appending a position to a word's index entry after an in-place update:
the count of position `p` under key `w'` grows by one exactly for the updated
word at the inserted position, provided the key is present. -/
theorem count_lookup_mapUpdate (w : Str) (i : Nat) :
    ∀ (m : List (Str × List Nat)) (w' : Str) (p : Nat),
      (indexLookup (m.map (fun q => if q.1 = w then (q.1, q.2 ++ [i]) else q)) w').count p
        = (indexLookup m w').count p
          + (if w' = w ∧ p = i ∧ (m.any fun q => q.1 = w') = true then 1 else 0) := by
  intro m
  induction m with
  | nil => simp [indexLookup]
  | cons e t ih =>
    intro w' p
    obtain ⟨k, vs⟩ := e
    simp only [List.map_cons]
    by_cases hk : k = w
    · subst hk
      rw [if_pos rfl]
      by_cases hw' : w' = k
      · subst hw'
        simp only [indexLookup, List.lookup_cons, beq_self_eq_true, Option.getD_some,
          List.count_append]
        by_cases hp : p = i
        · subst hp
          rw [List.count_singleton]
          simp
        · have h0 : List.count p [i] = 0 := List.count_eq_zero.mpr (by simp [hp])
          rw [h0, if_neg (fun hcon => hp hcon.2.1)]
      · have hbeq : (w' == k) = false := beq_eq_false_iff_ne.mpr hw'
        simp only [indexLookup, List.lookup_cons, hbeq]
        have hih := ih w' p
        simp only [indexLookup] at hih
        rw [hih]
        rw [if_neg (fun hcon => hw' hcon.1), if_neg (fun hcon => hw' hcon.1)]
    · rw [if_neg hk]
      by_cases hw' : w' = k
      · subst hw'
        simp only [indexLookup, List.lookup_cons, beq_self_eq_true, Option.getD_some]
        rw [if_neg (fun hcon => hk hcon.1)]
        omega
      · have hbeq : (w' == k) = false := beq_eq_false_iff_ne.mpr hw'
        simp only [indexLookup, List.lookup_cons, hbeq]
        have hih := ih w' p
        simp only [indexLookup] at hih
        rw [hih]
        have hkw : ¬ (k = w') := fun he => hw' he.symm
        simp only [List.any_cons, decide_eq_false hkw, Bool.false_or]

/-- One `movies_index[word].append(idx)` step changes exactly one count: the
inserted position under the inserted word. -/
theorem count_indexInsert (m : List (Str × List Nat)) (w : Str) (i : Nat) (w' : Str) (p : Nat) :
    (indexLookup (indexInsert m w i) w').count p
      = (indexLookup m w').count p + (if w' = w ∧ p = i then 1 else 0) := by
  unfold indexInsert
  by_cases hc : (m.any fun q => q.1 = w) = true
  · rw [if_pos hc, count_lookup_mapUpdate]
    by_cases hww : w' = w
    · subst hww
      simp [hc]
    · simp [hww]
  · rw [if_neg hc]
    unfold indexLookup
    rw [List.lookup_append]
    by_cases hww : w' = w
    · subst hww
      have hl : m.lookup w' = none := by
        rw [List.lookup_eq_none_iff]
        intro q hq
        have hne : ¬ (q.1 = w') := fun he => hc (List.any_eq_true.mpr ⟨q, hq, by simp [he]⟩)
        exact bne_iff_ne.mpr (fun he => hne he.symm)
      rw [hl]
      simp only [Option.none_or, List.lookup_cons, beq_self_eq_true, Option.getD_some,
        Option.getD_none, List.count_nil]
      by_cases hp : p = i
      · subst hp
        rw [List.count_singleton]
        simp
      · rw [List.count_eq_zero.mpr (by simp [hp])]
        simp [hp]
    · have hl2 : List.lookup w' [(w, [i])] = none := by
        have hbeq : (w' == w) = false := beq_eq_false_iff_ne.mpr hww
        simp [List.lookup_cons, hbeq]
      rw [hl2]
      simp only [Option.or_none]
      rw [if_neg (fun hcon => hww hcon.1)]
      omega

/-- The inner loop of `build_movies_index` over one title's words adds, for
each word of length greater than 2, one occurrence of the current position
per occurrence of the word. -/
theorem count_indexAddWords (i : Nat) :
    ∀ (ws : List Str) (m : List (Str × List Nat)) (w : Str) (p : Nat),
      (indexLookup (indexAddWords i m ws) w).count p
        = (indexLookup m w).count p
          + (if 2 < w.length ∧ p = i then ws.count w else 0) := by
  intro ws
  induction ws with
  | nil => simp [indexAddWords]
  | cons u ws' ih =>
    intro m w p
    simp only [indexAddWords, List.foldl_cons] at *
    by_cases hu : 2 < u.length
    · rw [if_pos hu, ih, count_indexInsert]
      rw [List.count_cons]
      by_cases hwu : u = w
      · subst hwu
        simp only [beq_self_eq_true, if_pos rfl]
        split_ifs with h1 h2 h3 <;> simp_all <;> omega
      · have hbeq : (u == w) = false := beq_eq_false_iff_ne.mpr hwu
        have hwu' : ¬ (w = u) := fun he => hwu he.symm
        simp only [hbeq, if_false]
        split_ifs with h1 h2 h3 <;> simp_all <;> omega
    · rw [if_neg hu, ih]
      rw [List.count_cons]
      by_cases hwu : u = w
      · subst hwu
        split_ifs with h1 <;> simp_all
      · have hbeq : (u == w) = false := beq_eq_false_iff_ne.mpr hwu
        simp [hbeq]

/-- The index built by `build_movies_index` maps word `w` to position `p`
exactly as many times as `w` (of length greater than 2) occurs in the
whitespace-split normalized title at position `p`, and holds no other
mappings. -/
theorem count_buildMoviesIndex :
    ∀ (movies : List Movie) (w : Str) (p : Nat),
      (indexLookup (buildMoviesIndex movies) w).count p =
        if p < movies.length ∧ 2 < w.length
        then ((splitWS (normalizeAbbreviations (pyLower ((movies.getD p ⟨[], []⟩).title)))).count w)
        else 0 := by
  intro movies
  induction movies using List.reverseRecOn with
  | nil => simp [buildMoviesIndex, indexLookup]
  | append_singleton ms mv ih =>
    intro w p
    unfold buildMoviesIndex at *
    rw [List.enum_append, List.foldl_append]
    simp only [List.enumFrom_cons, List.enumFrom_nil, List.foldl_cons, List.foldl_nil]
    rw [show (indexAddWords (ms.length, mv).1
        (List.foldl (fun acc q =>
          indexAddWords q.1 acc (splitWS (normalizeAbbreviations (pyLower q.2.title)))) [] ms.enum)
        (splitWS (normalizeAbbreviations (pyLower (ms.length, mv).2.title)))) =
      (indexAddWords ms.length
        (List.foldl (fun acc q =>
          indexAddWords q.1 acc (splitWS (normalizeAbbreviations (pyLower q.2.title)))) [] ms.enum)
        (splitWS (normalizeAbbreviations (pyLower mv.title)))) from rfl]
    rw [count_indexAddWords, ih]
    rcases Nat.lt_trichotomy p ms.length with hp | hp | hp
    · have hg : (ms ++ [mv]).getD p ⟨[], []⟩ = ms.getD p ⟨[], []⟩ := by
        simp only [List.getD_eq_getElem?_getD]
        rw [List.getElem?_append_left hp]
      have hne : p ≠ ms.length := Nat.ne_of_lt hp
      have hlt : p < (ms ++ [mv]).length := by
        simp only [List.length_append, List.length_singleton]
        omega
      rw [hg]
      split_ifs with h1 h2 h3 <;> simp_all <;> omega
    · subst hp
      have hg : (ms ++ [mv]).getD ms.length ⟨[], []⟩ = mv := by
        simp only [List.getD_eq_getElem?_getD]
        rw [List.getElem?_append_right le_rfl]
        simp
      rw [hg]
      have hnlt : ¬ (ms.length < ms.length) := lt_irrefl _
      have hlt : ms.length < (ms ++ [mv]).length := by
        simp only [List.length_append, List.length_singleton]
        omega
      split_ifs with h1 h2 h3 <;> simp_all <;> omega
    · have h1 : ¬ (p < ms.length) := by omega
      have h2 : ¬ (p < (ms ++ [mv]).length) := by
        simp only [List.length_append, List.length_singleton]
        omega
      have h3 : p ≠ ms.length := by omega
      split_ifs with hx hy <;> simp_all <;> omega

/-- C8: after every successful catalog mutation, the rebuilt term index maps a
normalized token of length greater than 2 to position `p` exactly as many
times as that token occurs in the whitespace-split normalized title of the
entry at `p` (duplicates included), and it holds no other mappings; a
successful `add_movie` leaves the state's index equal to the index rebuilt
from its catalog. -/
theorem index_consistent_after_mutation :
    (∀ (movies : List Movie) (w : Str) (p : Nat),
      (indexLookup (buildMoviesIndex movies) w).count p =
        if p < movies.length ∧ 2 < w.length
        then ((splitWS (normalizeAbbreviations (pyLower ((movies.getD p ⟨[], []⟩).title)))).count w)
        else 0) ∧
    (∀ t f st, (addMovie t f st).1 = true →
      (addMovie t f st).2.moviesIndex = buildMoviesIndex ((addMovie t f st).2.movies)) := by
  constructor
  · exact count_buildMoviesIndex
  · intro t f st h
    unfold addMovie at h ⊢
    split at h
    · exact absurd h (by simp)
    · rename_i hc
      rw [if_neg hc]

/-- Witness for C8 at a concrete insert and a concrete index count. -/
theorem index_consistent_after_mutation_witness :
    (addMovie "abc def".data "f".data ⟨[], [], [], 0, 0⟩).1 = true ∧
    (addMovie "abc def".data "f".data ⟨[], [], [], 0, 0⟩).2.moviesIndex =
      buildMoviesIndex ((addMovie "abc def".data "f".data ⟨[], [], [], 0, 0⟩).2.movies) :=
  ⟨by decide, index_consistent_after_mutation.2 _ _ _ (by decide)⟩

/-- Facts about lower-case letters needed by the idempotence argument: they
are word characters, not digits, not the space, and fixed by case folding. -/
theorem letter_facts :
    ∀ c ∈ letterChars, wordChar c = true ∧ c.isDigit = false ∧ c ≠ ' ' ∧ c.toLower = c := by
  decide

/-- A digit is a word character. -/
theorem digit_wordChar {c : Char} (h : c.isDigit = true) : wordChar c = true := by
  simp only [wordChar, Char.isAlphanum, Bool.or_eq_true]
  exact Or.inl (Or.inr h)

/-- The right-boundary test refutes a leading digit. -/
theorem atBoundary_head_not_digit {c : Char} {t : Str} (h : atBoundary (c :: t) = true) :
    c.isDigit = false := by
  simp only [atBoundary, Bool.not_eq_true'] at h
  cases hd : c.isDigit with
  | false => rfl
  | true => rw [digit_wordChar hd] at h; exact absurd h (by simp)

/-- ASCII case folding is idempotent. -/
theorem toLower_toLower (c : Char) : c.toLower.toLower = c.toLower := by
  unfold Char.toLower
  by_cases h : c.toNat ≥ 65 ∧ c.toNat ≤ 90
  · rw [if_pos h]
    have hv : (c.toNat + 32).isValidChar := Or.inl (by omega)
    have ht : (Char.ofNat (c.toNat + 32)).toNat = c.toNat + 32 := by
      rw [Char.ofNat, dif_pos hv]
      rfl
    have hn : ¬ ((Char.ofNat (c.toNat + 32)).toNat ≥ 65 ∧
        (Char.ofNat (c.toNat + 32)).toNat ≤ 90) := by
      rw [ht]
      omega
    rw [if_neg hn]
  · rw [if_neg h, if_neg h]

/-- What a successful `tryAbbrev` match means: the input splits as keyword,
nonempty digit group, and remainder starting at a word boundary. -/
theorem tryAbbrev_eq_some_shape {kw s d r : Str} (h : tryAbbrev kw s = some (d, r)) :
    s = kw ++ d ++ r ∧ d ≠ [] ∧ (∀ c ∈ d, c.isDigit = true) ∧ atBoundary r = true := by
  unfold tryAbbrev at h
  by_cases hp : kw.isPrefixOf s
  · rw [if_pos hp] at h
    by_cases he : ((s.drop kw.length).takeWhile Char.isDigit).isEmpty
    · rw [if_pos he] at h
      exact absurd h (by simp)
    · rw [if_neg he] at h
      by_cases hb : atBoundary ((s.drop kw.length).dropWhile Char.isDigit) = true
      · rw [if_pos hb] at h
        injection h with h
        injection h with h1 h2
        subst h1
        subst h2
        refine ⟨?_, ?_, ?_, hb⟩
        · have hpre : kw <+: s := List.isPrefixOf_iff_prefix.mp hp
          have := List.prefix_iff_eq_append.mp hpre
          rw [List.append_assoc, List.takeWhile_append_dropWhile]
          exact this.symm
        · intro hnil
          rw [hnil] at he
          exact he rfl
        · intro c hc
          exact List.mem_takeWhile_imp hc
      · rw [if_neg hb] at h
        exact absurd h (by simp)
  · rw [if_neg hp] at h
    exact absurd h (by simp)

/-- `takeWhile`/`dropWhile` on a digit group followed by a boundary. -/
theorem takeWhile_digits (d r : Str) (hdig : ∀ c ∈ d, c.isDigit = true)
    (hb : atBoundary r = true) :
    (d ++ r).takeWhile Char.isDigit = d ∧ (d ++ r).dropWhile Char.isDigit = r := by
  induction d with
  | nil =>
    simp only [List.nil_append]
    cases r with
    | nil => exact ⟨rfl, rfl⟩
    | cons c t =>
      have hc : c.isDigit = false := atBoundary_head_not_digit hb
      constructor
      · rw [List.takeWhile_cons_of_neg (by simp [hc])]
      · rw [List.dropWhile_cons_of_neg (by simp [hc])]
  | cons c d' ih =>
    have hc : c.isDigit = true := hdig c (List.mem_cons_self _ _)
    obtain ⟨ht, hd⟩ := ih (fun x hx => hdig x (List.mem_cons_of_mem _ hx))
    constructor
    · rw [List.cons_append, List.takeWhile_cons_of_pos (by simp [hc]), ht]
    · rw [List.cons_append, List.dropWhile_cons_of_pos (by simp [hc]), hd]

/-- `tryAbbrev` succeeds on a keyword, nonempty digit group, and boundary. -/
theorem tryAbbrev_intro (kw d r : Str) (hd : d ≠ []) (hdig : ∀ c ∈ d, c.isDigit = true)
    (hb : atBoundary r = true) :
    tryAbbrev kw (kw ++ d ++ r) = some (d, r) := by
  unfold tryAbbrev
  have hp : kw.isPrefixOf (kw ++ d ++ r) = true := by
    rw [List.isPrefixOf_iff_prefix, List.append_assoc]
    exact List.prefix_append kw (d ++ r)
  rw [if_pos hp]
  have hdrop : (kw ++ d ++ r).drop kw.length = d ++ r := by
    rw [List.append_assoc, List.drop_left]
  rw [hdrop]
  obtain ⟨ht, hdw⟩ := takeWhile_digits d r hdig hb
  rw [ht, hdw]
  rw [if_neg (by simp [hd]), if_pos hb]

/-- First-match decomposition of a `reSubF` pass: either the scan changes
nothing, or the input splits at the first match into an untouched prefix `u`,
the matched keyword and digits, and a remainder that is rescanned with the
previous-character flag set (the last scanned character is a digit). -/
theorem reSubF_agree (kw canon : Str) :
    ∀ (n : Nat) (b : Bool) (s : Str), s.length ≤ n →
      reSubF kw canon n b s = s ∨
      ∃ u d r m, s = u ++ kw ++ d ++ r ∧
        reSubF kw canon n b s = u ++ canon ++ ' ' :: (d ++ reSubF kw canon m true r) ∧
        d ≠ [] ∧ (∀ c ∈ d, c.isDigit = true) ∧ atBoundary r = true ∧ r.length ≤ m := by
  intro n
  induction n with
  | zero =>
    intro b s _
    left
    rfl
  | succ n ih =>
    intro b s hs
    cases s with
    | nil => left; rfl
    | cons c rest =>
      have hrest : rest.length ≤ n := by
        simp only [List.length_cons] at hs
        omega
      cases b with
      | true =>
        rcases ih (wordChar c) rest hrest with h | ⟨u, d, r, m, hs1, hs2, hd, hdig, hbd, hm⟩
        · left
          simp only [reSubF, if_pos rfl]
          rw [h, if_pos trivial]
        · right
          refine ⟨c :: u, d, r, m, ?_, ?_, hd, hdig, hbd, hm⟩
          · rw [hs1]
            simp [List.cons_append]
          · simp only [reSubF, if_pos rfl]
            rw [hs2, if_pos trivial]
            simp [List.cons_append]
      | false =>
        cases hma : tryAbbrev kw (c :: rest) with
        | some pr =>
          obtain ⟨d, r⟩ := pr
          obtain ⟨hshape, hd, hdig, hbd⟩ := tryAbbrev_eq_some_shape hma
          right
          refine ⟨[], d, r, n, ?_, ?_, hd, hdig, hbd, ?_⟩
          · simpa using hshape
          · simp only [reSubF, Bool.false_eq_true, if_false, hma]
            simp
          · have hlen := congrArg List.length hshape
            simp only [List.length_cons, List.length_append] at hlen
            have hd1 : 1 ≤ d.length := by
              cases d with
              | nil => exact absurd rfl hd
              | cons x xs => simp
            omega
        | none =>
          rcases ih (wordChar c) rest hrest with h | ⟨u, d, r, m, hs1, hs2, hd, hdig, hbd, hm⟩
          · left
            simp only [reSubF, Bool.false_eq_true, if_false, hma]
            rw [h]
          · right
            refine ⟨c :: u, d, r, m, ?_, ?_, hd, hdig, hbd, hm⟩
            · rw [hs1]
              simp [List.cons_append]
            · simp only [reSubF, Bool.false_eq_true, if_false, hma]
              rw [hs2]
              simp [List.cons_append]

/-- The key overlap lemma: if the pattern `\bkw(\d+)\b` does not match at the
current position, it still does not match there after the tail has been
rewritten by any abbreviation pass (replacements insert all-letter words and a
space, which can neither complete a keyword-digit adjacency nor create a new
boundary inside the scanned prefix). -/
theorem tryAbbrev_none_of_rewrite (kw kw' canon' : Str)
    (hkw : alphaStr kw) (hcn : alphaStr canon')
    (n : Nat) (w : Bool) (c : Char) (rest : Str) (hn : rest.length ≤ n)
    (hnone : tryAbbrev kw (c :: rest) = none) :
    tryAbbrev kw (c :: reSubF kw' canon' n w rest) = none := by
  rcases reSubF_agree kw' canon' n w rest hn with h | ⟨u, d0, r0, m, hs1, hs2, _, _, _, _⟩
  · rw [h]
    exact hnone
  · rw [hs2]
    cases hma : tryAbbrev kw (c :: (u ++ canon' ++ ' ' :: (d0 ++ reSubF kw' canon' m true r0))) with
    | none => rfl
    | some pr =>
      exfalso
      obtain ⟨d, r'⟩ := pr
      obtain ⟨hshape, hd, hdig, hbd⟩ := tryAbbrev_eq_some_shape hma
      obtain ⟨hkne, hkl⟩ := hkw
      obtain ⟨hcne, hcl⟩ := hcn
      have hE : ((c :: u) ++ canon') ++ (' ' :: (d0 ++ reSubF kw' canon' m true r0)) =
          (kw ++ d) ++ r' := by
        simpa [List.cons_append, List.append_assoc] using hshape
      have hlenE := congrArg List.length hE
      simp only [List.length_append, List.length_cons] at hlenE
      rcases Nat.lt_trichotomy ((kw ++ d).length) (((c :: u) ++ canon').length) with hlt | heq | hgt
      · -- the match and its boundary character fit strictly inside `(c :: u) ++ canon'`
        have h1 : (((c :: u) ++ canon') ++ (' ' :: (d0 ++ reSubF kw' canon' m true r0))).drop
            (kw ++ d).length = r' := by
          rw [hE]
          exact List.drop_left _ _
        have h2 : (((c :: u) ++ canon') ++ (' ' :: (d0 ++ reSubF kw' canon' m true r0))).drop
            (kw ++ d).length =
            ((c :: u) ++ canon').drop (kw ++ d).length ++
              (' ' :: (d0 ++ reSubF kw' canon' m true r0)) := by
          rw [List.drop_append_eq_append_drop]
          have hz : (kw ++ d).length - ((c :: u) ++ canon').length = 0 := by omega
          rw [hz, List.drop_zero]
        have hr' : r' = ((c :: u) ++ canon').drop (kw ++ d).length ++
            (' ' :: (d0 ++ reSubF kw' canon' m true r0)) := h1.symm.trans h2
        obtain ⟨v0, vt, hV⟩ : ∃ v0 vt,
            ((c :: u) ++ canon').drop (kw ++ d).length = v0 :: vt := by
          cases hVd : ((c :: u) ++ canon').drop (kw ++ d).length with
          | nil =>
            exfalso
            rw [List.drop_eq_nil_iff] at hVd
            omega
          | cons v0 vt => exact ⟨v0, vt, rfl⟩
        have hv0w : wordChar v0 = false := by
          rw [hr', hV] at hbd
          simp only [List.cons_append, atBoundary, Bool.not_eq_true'] at hbd
          exact hbd
        by_cases hAu : (c :: u).length ≤ (kw ++ d).length
        · -- boundary character would be a letter of `canon'`
          have hVW : ((c :: u) ++ canon').drop (kw ++ d).length =
              canon'.drop ((kw ++ d).length - (c :: u).length) := by
            rw [List.drop_append_eq_append_drop, List.drop_eq_nil_of_le hAu, List.nil_append]
          have hv0mem : v0 ∈ canon' := by
            have : v0 ∈ canon'.drop ((kw ++ d).length - (c :: u).length) := by
              rw [← hVW, hV]
              exact List.mem_cons_self _ _
            exact List.drop_subset _ _ this
          have := (letter_facts v0 (hcl v0 hv0mem)).1
          rw [this] at hv0w
          exact absurd hv0w (by simp)
        · -- the good case: the whole match precedes the rewritten region,
          -- so the same match already existed in the old string
          push_neg at hAu
          have h3 : (((c :: u) ++ canon') ++
              (' ' :: (d0 ++ reSubF kw' canon' m true r0))).take (kw ++ d).length =
              kw ++ d := by
            rw [hE]
            exact List.take_left _ _
          have h4 : (((c :: u) ++ canon') ++
              (' ' :: (d0 ++ reSubF kw' canon' m true r0))).take (kw ++ d).length =
              (c :: u).take (kw ++ d).length := by
            rw [List.take_append_eq_append_take]
            have hz : (kw ++ d).length - ((c :: u) ++ canon').length = 0 := by omega
            rw [hz, List.take_zero, List.append_nil]
            rw [List.take_append_eq_append_take]
            have hz2 : (kw ++ d).length - (c :: u).length = 0 := by omega
            rw [hz2, List.take_zero, List.append_nil]
          have hA : kw ++ d = (c :: u).take (kw ++ d).length := h3.symm.trans h4
          have hsplit : c :: u = (kw ++ d) ++ (c :: u).drop (kw ++ d).length := by
            conv_lhs => rw [← List.take_append_drop (kw ++ d).length (c :: u)]
            rw [← hA]
          obtain ⟨w0, wt, hW⟩ : ∃ w0 wt, (c :: u).drop (kw ++ d).length = w0 :: wt := by
            cases hWd : (c :: u).drop (kw ++ d).length with
            | nil =>
              exfalso
              rw [List.drop_eq_nil_iff] at hWd
              omega
            | cons w0 wt => exact ⟨w0, wt, rfl⟩
          have hVW : ((c :: u) ++ canon').drop (kw ++ d).length =
              (c :: u).drop (kw ++ d).length ++ canon' := by
            rw [List.drop_append_eq_append_drop]
            have hz : (kw ++ d).length - (c :: u).length = 0 := by omega
            rw [hz, List.drop_zero]
          have hw0 : w0 = v0 := by
            rw [hW] at hVW
            rw [hVW] at hV
            simp only [List.cons_append, List.cons.injEq] at hV
            exact hV.1
          have hold : c :: rest = (kw ++ d) ++ ((w0 :: wt) ++ (kw' ++ d0 ++ r0)) := by
            rw [hs1]
            conv_lhs => rw [show c :: (u ++ kw' ++ d0 ++ r0) =
              (c :: u) ++ (kw' ++ d0 ++ r0) by simp [List.cons_append, List.append_assoc]]
            rw [hsplit, hW]
            simp [List.append_assoc]
          have hbound : atBoundary ((w0 :: wt) ++ (kw' ++ d0 ++ r0)) = true := by
            simp only [List.cons_append, atBoundary]
            rw [hw0, hv0w]
            rfl
          have hintro := tryAbbrev_intro kw d ((w0 :: wt) ++ (kw' ++ d0 ++ r0)) hd hdig hbound
          rw [hold] at hnone
          rw [List.append_assoc] at hintro hnone
          rw [hintro] at hnone
          exact Option.noConfusion hnone
      · -- equal length: the keyword-digit block would end in a letter
        obtain ⟨hAB, _⟩ := List.append_inj hE heq.symm
        obtain ⟨d1, cd, hd1⟩ : ∃ l x, d = l ++ [x] := by
          rcases List.eq_nil_or_concat d with hni | ⟨L, b, hcc⟩
          · exact absurd hni hd
          · exact ⟨L, b, by simpa [List.concat_eq_append] using hcc⟩
        obtain ⟨c1, ce, hc1⟩ : ∃ l x, canon' = l ++ [x] := by
          rcases List.eq_nil_or_concat canon' with hni | ⟨L, b, hcc⟩
          · exact absurd hni hcne
          · exact ⟨L, b, by simpa [List.concat_eq_append] using hcc⟩
        have hlast1 : ((c :: u) ++ canon').getLast? = some ce := by
          rw [hc1, ← List.append_assoc]
          exact List.getLast?_concat _
        have hlast2 : (kw ++ d).getLast? = some cd := by
          rw [hd1, ← List.append_assoc]
          exact List.getLast?_concat _
        rw [← hAB] at hlast2
        rw [hlast1] at hlast2
        injection hlast2 with hce
        have hcedig : ce.isDigit = true := hdig ce (by rw [hd1, hce]; simp)
        have hcelet : ce.isDigit = false :=
          (letter_facts ce (hcl ce (by rw [hc1]; simp))).2.1
        rw [hcedig] at hcelet
        exact absurd hcelet (by simp)
      · -- longer: the space would sit inside the keyword-digit block
        have h1 : (((c :: u) ++ canon') ++ (' ' :: (d0 ++ reSubF kw' canon' m true r0))).take
            (kw ++ d).length = kw ++ d := by
          rw [hE]
          exact List.take_left _ _
        have h2 : (((c :: u) ++ canon') ++ (' ' :: (d0 ++ reSubF kw' canon' m true r0))).take
            (kw ++ d).length =
            ((c :: u) ++ canon') ++
              (' ' :: (d0 ++ reSubF kw' canon' m true r0)).take
                ((kw ++ d).length - ((c :: u) ++ canon').length) := by
          rw [List.take_append_eq_append_take, List.take_of_length_le (le_of_lt hgt)]
        have hpos : (kw ++ d).length - ((c :: u) ++ canon').length =
            ((kw ++ d).length - ((c :: u) ++ canon').length - 1) + 1 := by omega
        rw [hpos, List.take_succ_cons] at h2
        have hsp : (' ' : Char) ∈ kw ++ d := by
          rw [← h1, h2]
          exact List.mem_append_right _ (List.mem_cons_self _ _)
        rcases List.mem_append.mp hsp with hk | hdd
        · have : (' ' : Char) ∈ letterChars := hkl _ hk
          exact absurd this (by decide)
        · have : (' ' : Char).isDigit = true := hdig _ hdd
          exact absurd this (by decide)

/-- On a match-free string the scanner is the identity. -/
theorem reSubF_of_noMatch (kw canon : Str) :
    ∀ (n : Nat) (b : Bool) (s : Str), noMatch kw b s → reSubF kw canon n b s = s := by
  intro n
  induction n with
  | zero => intro b s _; rfl
  | succ n ih =>
    intro b s hnm
    cases s with
    | nil => rfl
    | cons c rest =>
      obtain ⟨h1, h2⟩ := hnm
      cases b with
      | true =>
        simp only [reSubF, if_pos rfl]
        rw [ih (wordChar c) rest h2, if_pos trivial]
      | false =>
        simp only [reSubF, Bool.false_eq_true, if_false, h1 rfl]
        rw [ih (wordChar c) rest h2]

/-- Walking a no-match proof past an appended prefix: the context entering the
suffix is the wordness of the last prefix character. -/
theorem noMatch_append_drop (kw : Str) :
    ∀ (x : Str) (b : Bool) (y : Str), noMatch kw b (x ++ y) →
      noMatch kw (x.foldl (fun _ c => wordChar c) b) y := by
  intro x
  induction x with
  | nil => intro b y h; exact h
  | cons c x' ih =>
    intro b y h
    obtain ⟨_, h2⟩ := h
    exact ih (wordChar c) y h2

/-- The running context after a nonempty digit group is word. -/
theorem foldl_ctx_digits :
    ∀ (d : Str), d ≠ [] → (∀ c ∈ d, c.isDigit = true) →
      ∀ b : Bool, d.foldl (fun _ c => wordChar c) b = true := by
  intro d
  induction d with
  | nil => intro h; exact absurd rfl h
  | cons c d' ih =>
    intro _ hdig b
    cases d' with
    | nil =>
      simp only [List.foldl_cons, List.foldl_nil]
      exact digit_wordChar (hdig c (List.mem_cons_self _ _))
    | cons c2 t =>
      simp only [List.foldl_cons]
      have := ih (by simp) (fun x hx => hdig x (List.mem_cons_of_mem _ hx)) (wordChar c)
      simpa [List.foldl_cons] using this

/-- No match can start inside a run of letters scanned in word context. -/
theorem noMatch_letters_append (kw : Str) :
    ∀ (v : Str), (∀ c ∈ v, c ∈ letterChars) →
      ∀ y, noMatch kw true y → noMatch kw true (v ++ y) := by
  intro v
  induction v with
  | nil => intro _ y hy; exact hy
  | cons a v' ih =>
    intro hv y hy
    refine ⟨by simp, ?_⟩
    rw [(letter_facts a (hv a (List.mem_cons_self _ _))).1]
    exact ih (fun x hx => hv x (List.mem_cons_of_mem _ hx)) y hy

/-- No match can start inside a run of digits scanned in word context. -/
theorem noMatch_digits_append_true (kw : Str) :
    ∀ (d : Str), (∀ c ∈ d, c.isDigit = true) →
      ∀ y, noMatch kw true y → noMatch kw true (d ++ y) := by
  intro d
  induction d with
  | nil => intro _ y hy; exact hy
  | cons a d' ih =>
    intro hd y hy
    refine ⟨by simp, ?_⟩
    rw [digit_wordChar (hd a (List.mem_cons_self _ _))]
    exact ih (fun x hx => hd x (List.mem_cons_of_mem _ hx)) y hy

/-- A keyword of letters cannot match at a leading digit. -/
theorem tryAbbrev_none_head_digit (kw : Str) (hkw : alphaStr kw) (c : Char)
    (hc : c.isDigit = true) (t : Str) : tryAbbrev kw (c :: t) = none := by
  obtain ⟨hne, hall⟩ := hkw
  cases kw with
  | nil => exact absurd rfl hne
  | cons k0 kt =>
    unfold tryAbbrev
    rw [if_neg]
    intro hp
    have hk0 : (k0 == c) = true := by
      simp only [List.isPrefixOf, Bool.and_eq_true] at hp
      exact hp.1
    have hk0e : k0 = c := beq_iff_eq.mp hk0
    have : k0.isDigit = false := (letter_facts k0 (hall k0 (List.mem_cons_self _ _))).2.1
    rw [hk0e, hc] at this
    exact absurd this (by simp)

/-- A no-match proof for a digit group entered at a boundary, followed by a
match-free suffix in word context. -/
theorem noMatch_digits_false (kw : Str) (hkw : alphaStr kw) (d : Str) (hd : d ≠ [])
    (hdig : ∀ c ∈ d, c.isDigit = true) (t : Str) (ht : noMatch kw true t) :
    noMatch kw false (d ++ t) := by
  cases d with
  | nil => exact absurd rfl hd
  | cons c d' =>
    refine ⟨fun _ => ?_, ?_⟩
    · exact tryAbbrev_none_head_digit kw hkw c (hdig c (List.mem_cons_self _ _)) (d' ++ t)
    · rw [digit_wordChar (hdig c (List.mem_cons_self _ _))]
      exact noMatch_digits_append_true kw d' (fun x hx => hdig x (List.mem_cons_of_mem _ hx)) t ht

/-- A keyword of letters cannot match a run of letters followed by a space:
after any keyword-length prefix the next character is a letter or the space,
never a digit. -/
theorem tryAbbrev_none_letters_space (kw v : Str) (hkw : alphaStr kw)
    (hv : ∀ c ∈ v, c ∈ letterChars) (z : Str) :
    tryAbbrev kw (v ++ ' ' :: z) = none := by
  obtain ⟨hkne, hkl⟩ := hkw
  cases hma : tryAbbrev kw (v ++ ' ' :: z) with
  | none => rfl
  | some pr =>
    exfalso
    obtain ⟨d, r'⟩ := pr
    obtain ⟨hshape, hd, hdig, _⟩ := tryAbbrev_eq_some_shape hma
    have hlenE := congrArg List.length hshape
    simp only [List.length_append, List.length_cons] at hlenE
    rcases Nat.lt_trichotomy kw.length v.length with hlt | heq | hgt
    · -- the first digit would be a letter of `v`
      have h1 : (v ++ ' ' :: z).drop kw.length = d ++ r' := by
        rw [hshape, List.append_assoc]
        exact List.drop_left _ _
      have h2 : (v ++ ' ' :: z).drop kw.length = v.drop kw.length ++ ' ' :: z := by
        rw [List.drop_append_eq_append_drop]
        have hz : kw.length - v.length = 0 := by omega
        rw [hz, List.drop_zero]
      obtain ⟨v0, vt, hV⟩ : ∃ v0 vt, v.drop kw.length = v0 :: vt := by
        cases hVd : v.drop kw.length with
        | nil =>
          exfalso
          rw [List.drop_eq_nil_iff] at hVd
          omega
        | cons v0 vt => exact ⟨v0, vt, rfl⟩
      obtain ⟨d0, dt, hD⟩ : ∃ d0 dt, d = d0 :: dt := by
        cases d with
        | nil => exact absurd rfl hd
        | cons d0 dt => exact ⟨d0, dt, rfl⟩
      have : v0 = d0 := by
        rw [h2, hV, hD] at h1
        simp only [List.cons_append, List.cons.injEq] at h1
        exact h1.1
      have hv0d : v0.isDigit = false :=
        (letter_facts v0 (hv v0 (List.drop_subset _ _ (hV ▸ List.mem_cons_self _ _)))).2.1
      have : v0.isDigit = true := this ▸ hdig d0 (hD ▸ List.mem_cons_self _ _)
      rw [this] at hv0d
      exact absurd hv0d (by simp)
    · -- the first digit would be the space
      have hAB : kw = v ∧ d ++ r' = ' ' :: z := by
        have hsh := hshape
        rw [List.append_assoc] at hsh
        exact ⟨(List.append_inj hsh.symm (by omega)).1,
               (List.append_inj hsh.symm (by omega)).2⟩
      obtain ⟨d0, dt, hD⟩ : ∃ d0 dt, d = d0 :: dt := by
        cases d with
        | nil => exact absurd rfl hd
        | cons d0 dt => exact ⟨d0, dt, rfl⟩
      have hsp : d0 = ' ' := by
        have := hAB.2
        rw [hD] at this
        simp only [List.cons_append, List.cons.injEq] at this
        exact this.1
      have : (' ' : Char).isDigit = true := hsp ▸ hdig d0 (hD ▸ List.mem_cons_self _ _)
      exact absurd this (by decide)
    · -- the space would sit inside the keyword
      have h1 : (v ++ ' ' :: z).take kw.length = kw := by
        rw [hshape, List.append_assoc]
        exact List.take_left _ _
      have h2 : (v ++ ' ' :: z).take kw.length =
          v ++ (' ' :: z).take (kw.length - v.length) := by
        rw [List.take_append_eq_append_take, List.take_of_length_le (le_of_lt hgt)]
      have hpos : kw.length - v.length = (kw.length - v.length - 1) + 1 := by omega
      rw [hpos, List.take_succ_cons] at h2
      have hsp : (' ' : Char) ∈ kw := by
        rw [← h1, h2]
        exact List.mem_append_right _ (List.mem_cons_self _ _)
      have : (' ' : Char) ∈ letterChars := hkl _ hsp
      exact absurd this (by decide)

/-- The emitted replacement region `canon ++ ' ' ++ digits` followed by a
match-free suffix is match-free. -/
theorem noMatch_emit (kw canon' : Str) (hkw : alphaStr kw) (hcn : alphaStr canon')
    (d : Str) (hd : d ≠ []) (hdig : ∀ c ∈ d, c.isDigit = true)
    (t : Str) (ht : noMatch kw true t) (b : Bool) :
    noMatch kw b (canon' ++ ' ' :: (d ++ t)) := by
  obtain ⟨hcne, hcl⟩ := hcn
  have hspace : noMatch kw true (' ' :: (d ++ t)) := by
    refine ⟨by simp, ?_⟩
    have : wordChar ' ' = false := by decide
    rw [this]
    exact noMatch_digits_false kw hkw d hd hdig t ht
  cases canon' with
  | nil => exact absurd rfl hcne
  | cons a v' =>
    refine ⟨fun _ => ?_, ?_⟩
    · exact tryAbbrev_none_letters_space kw (a :: v') hkw hcl (d ++ t)
    · rw [(letter_facts a (hcl a (List.mem_cons_self _ _))).1]
      exact noMatch_letters_append kw v' (fun x hx => hcl x (List.mem_cons_of_mem _ hx))
        (' ' :: (d ++ t)) hspace

/-- A full pass of its own pattern leaves a string match-free: every match is
rewritten into `canon ++ ' ' ++ digits`, which is itself match-free, and
positions that did not match still do not match after the rewrite. -/
theorem noMatch_self (kw canon : Str) (hkw : alphaStr kw) (hcn : alphaStr canon) :
    ∀ (n : Nat) (b : Bool) (s : Str), s.length ≤ n → noMatch kw b (reSubF kw canon n b s) := by
  intro n
  induction n with
  | zero =>
    intro b s hs
    have hnil : s = [] := List.length_eq_zero.mp (Nat.le_zero.mp hs)
    subst hnil
    exact trivial
  | succ n ih =>
    intro b s hs
    cases s with
    | nil => exact trivial
    | cons c rest =>
      have hrest : rest.length ≤ n := by
        simp only [List.length_cons] at hs
        omega
      cases b with
      | true =>
        simp only [reSubF, if_pos rfl, if_true]
        exact ⟨by simp, ih (wordChar c) rest hrest⟩
      | false =>
        cases hma : tryAbbrev kw (c :: rest) with
        | some pr =>
          obtain ⟨d, r⟩ := pr
          obtain ⟨hshape, hd, hdig, hbd⟩ := tryAbbrev_eq_some_shape hma
          simp only [reSubF, Bool.false_eq_true, if_false, hma]
          refine noMatch_emit kw canon hkw hcn d hd hdig _ ?_ false
          apply ih
          have hlen := congrArg List.length hshape
          simp only [List.length_cons, List.length_append] at hlen
          have hd1 : 1 ≤ d.length := by
            cases d with
            | nil => exact absurd rfl hd
            | cons x xs => simp
          omega
        | none =>
          simp only [reSubF, Bool.false_eq_true, if_false, hma]
          exact ⟨fun _ => tryAbbrev_none_of_rewrite kw kw canon hkw hcn n (wordChar c) c rest
            hrest hma, ih (wordChar c) rest hrest⟩

/-- A pass of a different pattern preserves match-freedom of `kw`: the
rewritten regions are match-free for every letter keyword and matches cannot
newly appear at untouched positions. -/
theorem noMatch_pres (kw kw' canon' : Str) (hkw : alphaStr kw) (hcn : alphaStr canon') :
    ∀ (n : Nat) (b : Bool) (s : Str), s.length ≤ n → noMatch kw b s →
      noMatch kw b (reSubF kw' canon' n b s) := by
  intro n
  induction n with
  | zero => intro b s _ hnm; exact hnm
  | succ n ih =>
    intro b s hs hnm
    cases s with
    | nil => exact hnm
    | cons c rest =>
      obtain ⟨h1, h2⟩ := hnm
      have hrest : rest.length ≤ n := by
        simp only [List.length_cons] at hs
        omega
      cases b with
      | true =>
        simp only [reSubF, if_pos rfl, if_true]
        exact ⟨by simp, ih (wordChar c) rest hrest h2⟩
      | false =>
        cases hma : tryAbbrev kw' (c :: rest) with
        | some pr =>
          obtain ⟨d, r⟩ := pr
          obtain ⟨hshape, hd, hdig, hbd⟩ := tryAbbrev_eq_some_shape hma
          simp only [reSubF, Bool.false_eq_true, if_false, hma]
          refine noMatch_emit kw canon' hkw hcn d hd hdig _ ?_ false
          have hr : noMatch kw ((kw' ++ d).foldl (fun _ x => wordChar x) false) r := by
            apply noMatch_append_drop
            rw [show (kw' ++ d) ++ r = c :: rest from by
              rw [hshape, List.append_assoc]]
            exact ⟨h1, h2⟩
          have hctx : (kw' ++ d).foldl (fun _ x => wordChar x) false = true := by
            rw [List.foldl_append]
            exact foldl_ctx_digits d hd hdig _
          rw [hctx] at hr
          apply ih true r ?_ hr
          have hlen := congrArg List.length hshape
          simp only [List.length_cons, List.length_append] at hlen
          have hd1 : 1 ≤ d.length := by
            cases d with
            | nil => exact absurd rfl hd
            | cons x xs => simp
          omega
        | none =>
          simp only [reSubF, Bool.false_eq_true, if_false, hma]
          exact ⟨fun _ => tryAbbrev_none_of_rewrite kw kw' canon' hkw hcn n (wordChar c) c rest
            hrest (h1 rfl), ih (wordChar c) rest hrest h2⟩

/-- A later cascade of passes preserves match-freedom. -/
theorem applyAbbrevs_pres (kw : Str) (hkw : alphaStr kw) :
    ∀ (l : List (Str × Str)), (∀ p ∈ l, alphaStr p.2) →
      ∀ s, noMatch kw false s → noMatch kw false (applyAbbrevs l s) := by
  intro l
  induction l with
  | nil => intro _ s h; exact h
  | cons q l' ih =>
    intro hl s h
    simp only [applyAbbrevs, List.foldl_cons]
    exact ih (fun p hp => hl p (List.mem_cons_of_mem _ hp)) _
      (noMatch_pres kw q.1 q.2 hkw (hl q (List.mem_cons_self _ _)) s.length false s le_rfl h)

/-- After the whole cascade, no pattern of the table matches anywhere. -/
theorem applyAbbrevs_noMatch :
    ∀ (l : List (Str × Str)), (∀ p ∈ l, alphaStr p.1 ∧ alphaStr p.2) →
      ∀ (s : Str), ∀ p ∈ l, noMatch p.1 false (applyAbbrevs l s) := by
  intro l
  induction l with
  | nil => intro _ s p hp; simp at hp
  | cons q l' ih =>
    intro hl s p hp
    simp only [applyAbbrevs, List.foldl_cons]
    rcases List.mem_cons.mp hp with rfl | hp'
    · have h0 : noMatch p.1 false (reSub p.1 p.2 s) :=
        noMatch_self p.1 p.2 (hl p hp).1 (hl p hp).2 s.length false s le_rfl
      exact applyAbbrevs_pres p.1 (hl p hp).1 l'
        (fun r hr => (hl r (List.mem_cons_of_mem _ hr)).2) _ h0
    · exact ih (fun r hr => hl r (List.mem_cons_of_mem _ hr)) _ p hp'

/-- On a string where no pattern matches, the whole cascade is the identity. -/
theorem applyAbbrevs_id :
    ∀ (l : List (Str × Str)) (s : Str), (∀ p ∈ l, noMatch p.1 false s) →
      applyAbbrevs l s = s := by
  intro l
  induction l with
  | nil => intro s _; rfl
  | cons q l' ih =>
    intro s h
    simp only [applyAbbrevs, List.foldl_cons]
    rw [show reSub q.1 q.2 s = s from
      reSubF_of_noMatch q.1 q.2 s.length false s (h q (List.mem_cons_self _ _))]
    exact ih s (fun p hp => h p (List.mem_cons_of_mem _ hp))

/-- Every character of a scan output comes from the input, the replacement
word, or is the inserted space. -/
theorem mem_reSubF (kw canon : Str) :
    ∀ (n : Nat) (b : Bool) (s : Str) (c : Char),
      c ∈ reSubF kw canon n b s → c ∈ s ∨ c ∈ canon ∨ c = ' ' := by
  intro n
  induction n with
  | zero => intro b s c h; exact Or.inl h
  | succ n ih =>
    intro b s c h
    cases s with
    | nil => simp only [reSubF] at h; exact Or.inl h
    | cons a rest =>
      cases b with
      | true =>
        simp only [reSubF, if_pos rfl, if_true] at h
        rcases List.mem_cons.mp h with rfl | h'
        · exact Or.inl (List.mem_cons_self _ _)
        · rcases ih (wordChar a) rest c h' with h2 | h2 | h2
          · exact Or.inl (List.mem_cons_of_mem _ h2)
          · exact Or.inr (Or.inl h2)
          · exact Or.inr (Or.inr h2)
      | false =>
        cases hma : tryAbbrev kw (a :: rest) with
        | some pr =>
          obtain ⟨d, r⟩ := pr
          obtain ⟨hshape, _, _, _⟩ := tryAbbrev_eq_some_shape hma
          simp only [reSubF, Bool.false_eq_true, if_false, hma] at h
          rcases List.mem_append.mp h with hc | hc
          · exact Or.inr (Or.inl hc)
          · rcases List.mem_cons.mp hc with rfl | hc'
            · exact Or.inr (Or.inr rfl)
            · rcases List.mem_append.mp hc' with hc2 | hc2
              · refine Or.inl ?_
                rw [hshape]
                exact List.mem_append_left _ (List.mem_append_right _ hc2)
              · rcases ih true r c hc2 with h3 | h3 | h3
                · refine Or.inl ?_
                  rw [hshape]
                  exact List.mem_append_right _ h3
                · exact Or.inr (Or.inl h3)
                · exact Or.inr (Or.inr h3)
        | none =>
          simp only [reSubF, Bool.false_eq_true, if_false, hma] at h
          rcases List.mem_cons.mp h with rfl | h'
          · exact Or.inl (List.mem_cons_self _ _)
          · rcases ih (wordChar a) rest c h' with h2 | h2 | h2
            · exact Or.inl (List.mem_cons_of_mem _ h2)
            · exact Or.inr (Or.inl h2)
            · exact Or.inr (Or.inr h2)

/-- Every character of a cascade output comes from the input, some
replacement word of the table, or is the inserted space. -/
theorem mem_applyAbbrevs :
    ∀ (l : List (Str × Str)) (s : Str) (c : Char), c ∈ applyAbbrevs l s →
      c ∈ s ∨ (∃ p ∈ l, c ∈ p.2) ∨ c = ' ' := by
  intro l
  induction l with
  | nil => intro s c h; exact Or.inl h
  | cons q l' ih =>
    intro s c h
    simp only [applyAbbrevs, List.foldl_cons] at h
    rcases ih _ c h with h1 | ⟨p, hp, hcp⟩ | h1
    · rcases mem_reSubF q.1 q.2 s.length false s c h1 with h2 | h2 | h2
      · exact Or.inl h2
      · exact Or.inr (Or.inl ⟨q, List.mem_cons_self _ _, h2⟩)
      · exact Or.inr (Or.inr h2)
    · exact Or.inr (Or.inl ⟨p, List.mem_cons_of_mem _ hp, hcp⟩)
    · exact Or.inr (Or.inr h1)

/-- A string of case-folding-fixed characters is fixed by `pyLower`. -/
theorem pyLower_fixed (y : Str) (h : ∀ c ∈ y, c.toLower = c) : pyLower y = y := by
  unfold pyLower
  rw [List.map_congr_left h, List.map_id']

/-- C2 fails on the code: `S02E05` is one alphanumeric token, so the
whole-token rewrites (`\b`-anchored) do not apply inside it, and
`normalize("Movie S02E05")` differs from `normalize("Movie season2 episode5")`. -/
theorem normalize_s02e05_counterexample :
    normalizeAbbreviations "Movie S02E05".data ≠
      normalizeAbbreviations "Movie season2 episode5".data := by
  decide

/-- C2 as amended: `normalize("Movie S02E05")` is `"movie s02e05"` unchanged
(no whole-token abbreviation matches inside the single token `s02e05`),
`normalize("Movie season2 episode5")` is `"movie season 2 episode 5"`, and for
whole-token abbreviations the claimed equality does hold:
`normalize("Movie S2 E5") = normalize("Movie season2 episode5")`. -/
theorem normalize_whole_token_equalities :
    normalizeAbbreviations "Movie S02E05".data = "movie s02e05".data ∧
    normalizeAbbreviations "Movie season2 episode5".data = "movie season 2 episode 5".data ∧
    normalizeAbbreviations "Movie S2 E5".data = normalizeAbbreviations "Movie season2 episode5".data := by
  decide

attribute [irreducible] MovieBot.reSubF

/-- C10: `normalize_abbreviations` is idempotent: no abbreviation rewrite
produces text that any rewrite matches again, since every replacement
separates the (all-letter) keyword from its digits with a space, and the
output is already lower-case. -/
theorem normalize_idempotent (x : Str) :
    normalizeAbbreviations (normalizeAbbreviations x) = normalizeAbbreviations x := by
  have htable : ∀ p ∈ abbrevMap, alphaStr p.1 ∧ alphaStr p.2 := by
    simp only [alphaStr]
    decide
  unfold normalizeAbbreviations
  have hfix : ∀ c ∈ applyAbbrevs abbrevMap (pyLower x), c.toLower = c := by
    intro c hc
    rcases mem_applyAbbrevs abbrevMap (pyLower x) c hc with h | ⟨p, hp, hcp⟩ | rfl
    · obtain ⟨c0, _, rfl⟩ := List.mem_map.mp h
      exact toLower_toLower c0
    · have hcanon : ∀ p ∈ abbrevMap, ∀ c ∈ p.2, c.toLower = c := by decide
      exact hcanon p hp c hcp
    · decide
  rw [pyLower_fixed _ hfix]
  exact applyAbbrevs_id abbrevMap (applyAbbrevs abbrevMap (pyLower x))
    (fun p hp => applyAbbrevs_noMatch abbrevMap htable (pyLower x) p hp)


end MovieBot
